import Mathlib

/-!
Verification of the geo-analyser scan orchestration and evaluation pipeline.

The development shallowly embeds the evaluator (`calculateScore`,
`evaluateResponse`, `evaluateScan`), the scan engine (`runScan`) and the
scan queue manager (`ScanQueueManager` in `queue.ts`).  JavaScript numbers
are modelled as rationals, fallible external calls (database, LLM
providers, the judge) as explicit outcome environments, and the
event-driven queue as a deterministic step function over an explicit state
driven by a list of events.
-/

namespace GeoAnalyser

/-- Metrics extracted from one AI answer (`EvaluationMetrics` in the
evaluator source).  Numbers are modelled as rationals; `ranking_position`
is a number or null. -/
structure EvaluationMetrics where
  is_visible : Bool
  sentiment_score : ℚ
  citation_found : Bool
  ranking_position : Option ℚ
  recommendation_strength : ℚ
deriving DecidableEq, Repr

/-- JavaScript `hay.includes(needle)`: substring containment. -/
def jsIncludes (hay needle : String) : Bool :=
  hay.toList.tails.any (fun t => needle.toList.isPrefixOf t)

/-- JavaScript `s.toLowerCase()`, modelled character by character. -/
def jsToLower (s : String) : String :=
  String.mk (s.toList.map Char.toLower)

/-- JavaScript `Math.round`: round half towards positive infinity. -/
def jsRound (q : ℚ) : ℤ :=
  ⌊q + 1 / 2⌋

/-- Per-result scoring function (`calculateScore` in the evaluator source).
The running `score` accumulator is written as a chain of lets, one per
statement.  JavaScript truthiness of `if (metrics.ranking_position)` means
the ranking branch runs exactly when the position is non-null and non-zero,
and the literal `0.1` is the rational 1/10. -/
def calculateScore (metrics : EvaluationMetrics) : ℚ :=
  let s1 : ℚ := if metrics.is_visible then 0 + 40 else 0
  let s2 : ℚ := s1 + (metrics.sentiment_score + 1) * 10
  let s3 : ℚ := if metrics.citation_found then s2 + 20 else s2
  let s4 : ℚ :=
    match metrics.ranking_position with
    | some rp => if rp ≠ 0 then s3 + max 0 (11 - rp) else s3
    | none => s3
  let s5 : ℚ := s4 + metrics.recommendation_strength * (1 / 10)
  min 100 (max 0 s5)

/-- The regular expression step `response.text.match(/\x7b[\s\S]*\x7d/)` of
`evaluateResponse`: extract the substring from the first opening brace to
the last closing brace at or after it, or nothing when no such substring
exists. -/
def extractJson (s : String) : Option String :=
  let fromBrace := s.toList.dropWhile (fun c => c ≠ '{')
  let upto := (fromBrace.reverse.dropWhile (fun c => c ≠ '}')).reverse
  if upto.isEmpty then none else some (String.mk upto)

/-- The heuristic fallback branch of `evaluateResponse` (the `catch` block):
case-insensitive substring matching of the brand variations and the domain
against the raw answer. -/
def fallbackMetrics (aiResponse : String) (brandVariations : List String)
    (domain : String) : EvaluationMetrics :=
  let lowerResponse := jsToLower aiResponse
  let isVisible := brandVariations.any (fun brand => jsIncludes lowerResponse (jsToLower brand))
  let citationFound := jsIncludes lowerResponse (jsToLower domain)
  { is_visible := isVisible
    sentiment_score := 0
    citation_found := citationFound
    ranking_position := none
    recommendation_strength := if isVisible then 50 else 0 }

/-- `evaluateResponse` from the evaluator source.  The judge call is
modelled by its outcome (`judge`: the response text, or an error), and
`JSON.parse` by the environment function `jsonParse` (returning nothing
when parsing throws).  On the success path the source clamps
`sentiment_score` to [-1,1] and `recommendation_strength` to [0,100]
(`x || 0` is the identity on our already-numeric model) and passes
`ranking_position` through unmodified; every failure (judge error, no
brace-delimited substring, parse error) lands in the `catch` fallback. -/
def evaluateResponse (judge : Except Unit String)
    (jsonParse : String → Option EvaluationMetrics)
    (aiResponse : String) (brandVariations : List String) (domain : String) :
    EvaluationMetrics :=
  match judge with
  | .error _ => fallbackMetrics aiResponse brandVariations domain
  | .ok text =>
    match extractJson text with
    | none => fallbackMetrics aiResponse brandVariations domain
    | some jsonText =>
      match jsonParse jsonText with
      | none => fallbackMetrics aiResponse brandVariations domain
      | some metrics =>
        { is_visible := metrics.is_visible
          sentiment_score := max (-1) (min 1 metrics.sentiment_score)
          citation_found := metrics.citation_found
          ranking_position := metrics.ranking_position
          recommendation_strength := max 0 (min 100 metrics.recommendation_strength) }

/-- The per-result scoring formula exactly as claim C1 states it:
40·[is_visible] + 10·(sentiment_score + 1) + 20·[citation_found] +
(max(0, 11 − ranking_position) when present, else 0, capped at 10) +
0.1·recommendation_strength, clamped to [0,100]. -/
def claimedScoreC1 (m : EvaluationMetrics) : ℚ :=
  let rank : ℚ :=
    match m.ranking_position with
    | some rp => min 10 (max 0 (11 - rp))
    | none => 0
  min 100 (max 0 ((if m.is_visible then (40 : ℚ) else 0) + 10 * (m.sentiment_score + 1) +
    (if m.citation_found then (20 : ℚ) else 0) + rank + (1 / 10) * m.recommendation_strength))

/-- The project fields the evaluator reads: the parsed brand-variation list
and the domain. -/
structure Project where
  brandVariations : List String
  domain : String
deriving DecidableEq, Repr

/-- Outcome environment of one `evaluateScan` call: whether `db.getScan`
finds the scan, the project row (or nothing), the decrypted judge API key,
the judge-call outcome for each pending result (by index), the behaviour of
`JSON.parse`, and whether the `db.updateScanResult` metrics write of each
result succeeds. -/
structure EvalEnv where
  scanFound : Bool
  project : Option Project
  judgeKey : Option String
  judges : ℕ → Except Unit String
  jsonParse : String → Option EvaluationMetrics
  persistMetrics : ℕ → Bool

/-- The fatal configuration errors of `evaluateScan`. -/
inductive EvalErr
| scanNotFound
| projectNotFound
| judgeKeyMissing
deriving DecidableEq, Repr

/-- One iteration of the `evaluateScan` result loop.  The accumulator holds
the running `totalScore`, `evaluatedCount` and the indices of results whose
metrics write succeeded.  In the source the score accumulation and the
count increment happen before the (fallible) `db.updateScanResult` write,
so a result whose write throws has already been counted; `evaluateResponse`
itself never throws (its failures land in its internal fallback). -/
def evalStep (env : EvalEnv) (proj : Project) (acc : ℚ × ℕ × List ℕ)
    (ir : ℕ × String) : ℚ × ℕ × List ℕ :=
  let metrics := evaluateResponse (env.judges ir.1) env.jsonParse ir.2
    proj.brandVariations proj.domain
  let responseScore := calculateScore metrics
  let totalScore := acc.1 + responseScore
  let evaluatedCount := acc.2.1 + 1
  let persisted := if env.persistMetrics ir.1 then acc.2.2 ++ [ir.1] else acc.2.2
  (totalScore, evaluatedCount, persisted)

/-- `evaluateScan` from the evaluator source, over the raw texts of the
pending (unevaluated) results.  Returns the overall score written to the
scan together with the indices of the results whose metrics were persisted,
or the fatal error thrown before the loop. -/
def evaluateScan (env : EvalEnv) (pending : List String) :
    Except EvalErr (ℤ × List ℕ) :=
  if !env.scanFound then .error .scanNotFound
  else
    match env.project with
    | none => .error .projectNotFound
    | some proj =>
      match env.judgeKey with
      | none => .error .judgeKeyMissing
      | some _ =>
        let r := pending.enum.foldl (evalStep env proj) (0, 0, [])
        let overallScore : ℤ := if r.2.1 > 0 then jsRound (r.1 / (r.2.1 : ℚ)) else 0
        .ok (overallScore, r.2.2)

/-- The aggregate exactly as claim C3 states it: the arithmetic mean of the
per-result scores of exactly those results whose metrics were successfully
persisted, rounded, and 0 when no result was scored. -/
def claimedOverallScoreC3 (env : EvalEnv) (proj : Project) (pending : List String) : ℤ :=
  let scored := pending.enum.filter (fun ir => env.persistMetrics ir.1)
  if scored.length > 0 then
    jsRound ((scored.map (fun ir => calculateScore (evaluateResponse (env.judges ir.1)
      env.jsonParse ir.2 proj.brandVariations proj.domain))).sum / (scored.length : ℚ))
  else 0

/-- An active query row, as the engine reads it. -/
structure Query where
  queryText : String
deriving DecidableEq, Repr

/-- An active provider-setting row. -/
structure ProviderSetting where
  provider : String
  model : String
deriving DecidableEq, Repr

/-- A ScanResult row as the engine creates it (metrics start null). -/
structure ScanResult where
  provider : String
  queryText : String
  aiResponseRaw : String
deriving DecidableEq, Repr

/-- The providers `runScan`'s switch dispatches on; any other provider hits
the `default` branch and the cell is skipped. -/
def knownProviders : List String := ["openai", "anthropic", "google", "perplexity"]

/-- A progress event `{total, completed, current}`. -/
structure ScanProgress where
  total : ℕ
  completed : ℕ
  current : String
deriving DecidableEq, Repr

/-- Persisted scan status. -/
inductive ScanStatus
| running
| completed
| failed
deriving DecidableEq, Repr

/-- Run-fatal errors of `runScan` (the source throws strings; the two
configuration messages and a propagated evaluator error are modelled as
constructors). -/
inductive ScanError
| noActiveQueries
| noActiveProviders
| evalFailed (e : EvalErr)
deriving DecidableEq, Repr

/-- Outcome environment of one `runScan` call: the active queries and
provider settings read from the database, the decrypted credential per
provider, the provider-call outcome per (key, provider, model, query), and
whether the `createScanResult` write of each cell (indexed in query-major
order) succeeds; plus everything the evaluator consults. -/
structure RunEnv where
  queries : List Query
  providers : List ProviderSetting
  apiKey : String → Option String
  callProvider : String → String → String → String → Except Unit String
  persistResult : ℕ → Bool
  project : Option Project
  judges : ℕ → Except Unit String
  jsonParse : String → Option EvaluationMetrics
  persistMetrics : ℕ → Bool

/-- The evaluator environment induced by a run: the scan row was just
created (so it is found) and the judge key is the decrypted openai key. -/
def evalEnvOf (env : RunEnv) : EvalEnv :=
  { scanFound := true
    project := env.project
    judgeKey := env.apiKey "openai"
    judges := env.judges
    jsonParse := env.jsonParse
    persistMetrics := env.persistMetrics }

/-- The `current` label of a cell's progress event:
`` `${provider}: ${query.queryText.substring(0, 50)}...` ``. -/
def cellLabel (cell : ℕ × Query × ProviderSetting) : String :=
  cell.2.2.provider ++ ": " ++ cell.2.1.queryText.take 50 ++ "..."

/-- One matrix cell of `runScan`'s nested loop.  The accumulator is the
`completed` counter, the emitted progress events and the created ScanResult
rows.  A progress event is emitted before the cell body; a missing API key,
an unknown provider, a failed provider call, or a failed result write each
skip the cell without incrementing `completed` and without failing the
run. -/
def cellStep (env : RunEnv) (total : ℕ)
    (acc : ℕ × List ScanProgress × List ScanResult)
    (cell : ℕ × Query × ProviderSetting) : ℕ × List ScanProgress × List ScanResult :=
  let completed := acc.1
  let events := acc.2.1 ++ [⟨total, completed, cellLabel cell⟩]
  match env.apiKey cell.2.2.provider with
  | none => (completed, events, acc.2.2)
  | some key =>
    if cell.2.2.provider ∈ knownProviders then
      match env.callProvider key cell.2.2.provider cell.2.2.model cell.2.1.queryText with
      | .error _ => (completed, events, acc.2.2)
      | .ok text =>
        if env.persistResult cell.1 then
          (completed + 1, events, acc.2.2 ++ [⟨cell.2.2.provider, cell.2.1.queryText, text⟩])
        else (completed, events, acc.2.2)
    else (completed, events, acc.2.2)

/-- Whether a matrix cell fully succeeds (credential present, known
provider, provider call succeeds, result row persisted) — exactly the
condition under which `cellStep` increments `completed`. -/
def cellSucceeds (env : RunEnv) (cell : ℕ × Query × ProviderSetting) : Bool :=
  match env.apiKey cell.2.2.provider with
  | none => false
  | some key =>
    if cell.2.2.provider ∈ knownProviders then
      match env.callProvider key cell.2.2.provider cell.2.2.model cell.2.1.queryText with
      | .error _ => false
      | .ok _ => env.persistResult cell.1
    else false

/-- The query-major (query outer, provider inner) cell list of a run,
with cell indices. -/
def runCells (env : RunEnv) : List (ℕ × Query × ProviderSetting) :=
  (env.queries.flatMap (fun q => env.providers.map (fun p => (q, p)))).enum

/-- The full observable outcome of one `runScan` call: the returned value
(the created scan id, modelled as `()`) or the propagated error, the final
scan row status and score, the progress events emitted to the callback in
order, the ScanResult rows created, the final `completed` counter and the
indices of results whose metrics were persisted by the evaluator. -/
structure RunOutcome where
  retval : Except ScanError Unit
  scanStatus : ScanStatus
  overallScore : Option ℤ
  progressEvents : List ScanProgress
  results : List ScanResult
  completed : ℕ
  persistedMetrics : List ℕ
deriving Repr

/-- `runScan` from the engine source.  The scan row is created with status
`running` and null score; a missing-queries or missing-providers check
throws before any cell; the nested loop runs every cell with per-cell fault
isolation; then the `Evaluating responses...` progress event (with
`completed := total`) is emitted, the evaluator runs, and on success the
scan is marked completed and a final `Scan completed` event is emitted.
Any thrown error is caught, the scan marked failed (score untouched), and
the error rethrown. -/
def runScan (env : RunEnv) : RunOutcome :=
  if env.queries.isEmpty then
    { retval := .error .noActiveQueries, scanStatus := .failed, overallScore := none,
      progressEvents := [], results := [], completed := 0, persistedMetrics := [] }
  else if env.providers.isEmpty then
    { retval := .error .noActiveProviders, scanStatus := .failed, overallScore := none,
      progressEvents := [], results := [], completed := 0, persistedMetrics := [] }
  else
    let total := env.queries.length * env.providers.length
    let r := (runCells env).foldl (cellStep env total) (0, [], [])
    let events := r.2.1 ++ [⟨total, total, "Evaluating responses..."⟩]
    let pending := r.2.2.map (fun res => res.aiResponseRaw)
    match evaluateScan (evalEnvOf env) pending with
    | .error e =>
      { retval := .error (.evalFailed e), scanStatus := .failed, overallScore := none,
        progressEvents := events, results := r.2.2, completed := r.1,
        persistedMetrics := [] }
    | .ok (overall, persisted) =>
      { retval := .ok (), scanStatus := .completed, overallScore := some overall,
        progressEvents := events ++ [⟨total, total, "Scan completed"⟩],
        results := r.2.2, completed := r.1, persistedMetrics := persisted }

/-- The progress events the cell loop emits, as a pure recursion: one event
per cell, carrying the `completed` counter as it stood when the cell
started. -/
def cellEvents (env : RunEnv) (total : ℕ) :
    List (ℕ × Query × ProviderSetting) → ℕ → List ScanProgress
  | [], _ => []
  | x :: xs, c =>
    ⟨total, c, cellLabel x⟩ :: cellEvents env total xs (c + if cellSucceeds env x then 1 else 0)

/-- The ScanResult rows one cell creates: one row when the cell fully
succeeds, none otherwise. -/
def cellResult (env : RunEnv) (x : ℕ × Query × ProviderSetting) : List ScanResult :=
  match env.apiKey x.2.2.provider with
  | none => []
  | some key =>
    if x.2.2.provider ∈ knownProviders then
      match env.callProvider key x.2.2.provider x.2.2.model x.2.1.queryText with
      | .error _ => []
      | .ok text =>
        if env.persistResult x.1 then [⟨x.2.2.provider, x.2.1.queryText, text⟩] else []
    else []

/-- The ScanResult rows the whole cell loop creates, in order. -/
def cellResults (env : RunEnv) (xs : List (ℕ × Query × ProviderSetting)) : List ScanResult :=
  xs.flatMap (cellResult env)

/-- Concrete project used by the concrete test environments. -/
def projC : Project :=
  ⟨["acme"], "acme.com"⟩

/-- Concrete evaluator environment for claim C3: the judge always fails (so
every result takes the heuristic), and only result 0's metrics write
succeeds. -/
def envC3 : EvalEnv :=
  { scanFound := true
    project := some projC
    judgeKey := some "k"
    judges := fun _ => .error ()
    jsonParse := fun _ => none
    persistMetrics := fun i => i == 0 }

/-- Concrete pending raw answers for claim C3: the first mentions the brand
(heuristic score 55), the second does not (heuristic score 10). -/
def pendingC3 : List String :=
  ["Acme is great", "nothing here"]

/-- Concrete run environment with no active queries. -/
def envC4a : RunEnv :=
  { queries := []
    providers := [⟨"openai", "gpt-4o"⟩]
    apiKey := fun _ => some "k"
    callProvider := fun _ _ _ _ => .ok "Acme is great"
    persistResult := fun _ => true
    project := some projC
    judges := fun _ => .error ()
    jsonParse := fun _ => none
    persistMetrics := fun _ => true }

/-- Concrete run environment with one active query and no active
providers. -/
def envC4b : RunEnv :=
  { envC4a with queries := [⟨"best tools"⟩], providers := [] }

/-- Concrete run environment with one query and two providers, where the
second provider's call fails: one cell succeeds, one is skipped. -/
def envC5 : RunEnv :=
  { envC4a with
    queries := [⟨"best tools"⟩]
    providers := [⟨"openai", "gpt-4o"⟩, ⟨"anthropic", "claude-3"⟩]
    callProvider := fun _ p _ _ => if p == "openai" then .ok "Acme is great" else .error () }

/-- `Except.isOk` as a plain definition. -/
def exceptOk : Except ScanError Unit → Bool
  | .ok _ => true
  | .error _ => false

/-- In-memory job status (`ScanJob.status` in `queue.ts`). -/
inductive JobStatus
| queued
| running
| paused
| completed
| failed
| cancelled
deriving DecidableEq, Repr

/-- An in-memory ScanJob.  Timestamps, the resulting scan id and the error
string are environment values not touched by any claim and are omitted.
`script` and `engineOk` record the engine behaviour fixed by the job's run
environment at enqueue time: the progress events the engine will emit, and
whether its promise resolves (`true`) or rejects (`false`). -/
structure Job where
  id : String
  projectId : String
  status : JobStatus
  progress : ScanProgress
  script : List ScanProgress
  engineOk : Bool
deriving DecidableEq, Repr

/-- A `runScan` call that has been started and has not yet settled: the job
it was started for, the progress events it has not yet emitted, and whether
it will resolve.  The source starts these in `processNext` and never aborts
them — the `AbortController` it creates is never handed to the engine. -/
structure InFlight where
  jid : String
  rest : List ScanProgress
  engineOk : Bool
deriving DecidableEq, Repr

/-- The `ScanQueueManager` state.  The queue array and the `currentJob`
field of the source alias the same `ScanJob` objects, so jobs live once in
the `jobs` store and `queue`/`current` hold id references into it.
`isPaused` is the global pause flag.  `progressLog` records, in order,
every progress value a job's progress callback accepted (the callback
assigns `job.progress` only while the job's status is `running`). -/
structure QState where
  jobs : List (String × Job)
  queue : List String
  current : Option String
  isPaused : Bool
  engines : List InFlight
  progressLog : List (String × ScanProgress)

/-- Look a job up in the store. -/
def lookupJob (s : QState) (jid : String) : Option Job :=
  (s.jobs.find? (fun p => p.1 == jid)).map (fun p => p.2)

/-- Mutate the job with the given id (the source mutates the shared object;
both the queue array and `currentJob` observe the change). -/
def setJob (s : QState) (jid : String) (f : Job → Job) : QState :=
  { s with jobs := s.jobs.map (fun p => if p.1 == jid then (p.1, f p.2) else p) }

/-- `findJob` from the source: the current job when its id matches,
otherwise a search of the queue array. -/
def findJob (s : QState) (jid : String) : Option Job :=
  if s.current = some jid then lookupJob s jid
  else if jid ∈ s.queue then lookupJob s jid
  else none

/-- The status of the stored job with the given id. -/
def statusOf (s : QState) (jid : String) : Option JobStatus :=
  (lookupJob s jid).map Job.status

/-- `getAllJobs` from the source: the queue array followed by the current
job when one is set (as id references; the source returns the objects). -/
def getAllJobs (s : QState) : List String :=
  s.queue ++ s.current.toList

/-- The in-flight engine record for a job, when its `runScan` call has
started and not yet settled. -/
def engineFor (s : QState) (jid : String) : Option InFlight :=
  s.engines.find? (fun e => e.jid == jid)

/-- The progress values accepted for a job, oldest first. -/
def progressLogOf (s : QState) (jid : String) : List ScanProgress :=
  (s.progressLog.filter (fun p => p.1 == jid)).map (fun p => p.2)

/-- `processNext` up to its first suspension point: bail out when paused or
when a job is running; otherwise take the oldest queued job, mark it
running, publish it as the current job and start its engine. -/
def dispatch (s : QState) : QState :=
  if s.isPaused || s.current.isSome then s
  else
    match s.queue.find? (fun j => (lookupJob s j).any (fun job => job.status == .queued)) with
    | none => s
    | some jid =>
      match lookupJob s jid with
      | none => s
      | some job =>
        let s1 := setJob s jid (fun j => { j with status := .running })
        { s1 with
          current := some jid
          engines := s1.engines ++ [⟨jid, job.script, job.engineOk⟩] }

/-- The events that drive the queue.  `enqueueScan`, `pauseScan`,
`resumeScan` and `cancelScan` are the public operations; `processNext` is a
deferred `setTimeout(() => this.processNext(), 100)` callback firing;
`engineProgress` is the running engine invoking the progress callback with
its next event; `engineReturn` is the awaited `runScan` promise settling
(only after every progress event of its script has been delivered). -/
inductive QEvent
| enqueueScan (jid pid : String) (env : RunEnv)
| pauseScan (jid : String)
| resumeScan (jid : String)
| cancelScan (jid : String)
| processNext
| engineProgress (jid : String)
| engineReturn (jid : String)

/-- The queue manager's transition function, one case per event, each a
direct transcription of the corresponding source method. -/
def qstep (s : QState) (ev : QEvent) : QState :=
  match ev with
  | .enqueueScan jid pid env =>
    if (lookupJob s jid).isSome then s
    else
      let out := runScan env
      let job : Job :=
        { id := jid, projectId := pid, status := .queued,
          progress := ⟨0, 0, "Waiting in queue..."⟩,
          script := out.progressEvents, engineOk := exceptOk out.retval }
      let s1 := { s with jobs := s.jobs ++ [(jid, job)], queue := s.queue ++ [jid] }
      if s1.current.isNone then dispatch s1 else s1
  | .pauseScan jid =>
    match findJob s jid with
    | none => s
    | some job =>
      if job.status = .running then
        { setJob s jid (fun j => { j with status := .paused }) with isPaused := true }
      else s
  | .resumeScan jid =>
    match findJob s jid with
    | none => s
    | some job =>
      if job.status = .paused then
        dispatch { setJob s jid (fun j => { j with status := .running }) with isPaused := false }
      else s
  | .cancelScan jid =>
    match findJob s jid with
    | none => s
    | some job =>
      let s1 := if job.status = .running then { s with current := none } else s
      let s2 := setJob s1 jid (fun j => { j with status := .cancelled })
      { s2 with queue := s2.queue.filter (fun j => j ≠ jid) }
  | .processNext => dispatch s
  | .engineProgress jid =>
    match engineFor s jid with
    | none => s
    | some e =>
      match e.rest with
      | [] => s
      | p :: rest =>
        let s1 := { s with engines := s.engines.map (fun e2 =>
          if e2.jid == jid then { e2 with rest := rest } else e2) }
        if statusOf s1 jid = some .running then
          { setJob s1 jid (fun j => { j with progress := p }) with
            progressLog := s1.progressLog ++ [(jid, p)] }
        else s1
  | .engineReturn jid =>
    match engineFor s jid with
    | none => s
    | some e =>
      match e.rest with
      | _ :: _ => s
      | [] =>
        let s1 := setJob s jid (fun j =>
          { j with status := if e.engineOk then .completed else .failed })
        { s1 with
          engines := s1.engines.filter (fun e2 => e2.jid ≠ jid)
          current := none }

/-- The queue's initial state: empty singleton manager. -/
def qinit : QState :=
  { jobs := [], queue := [], current := none, isPaused := false, engines := [],
    progressLog := [] }

/-- Run the queue from its initial state through a list of events. -/
def qrun (evs : List QEvent) : QState :=
  evs.foldl qstep qinit

/-- Well-formedness of the queue state, preserved by every event: queue ids
are distinct, every queued id has a stored job, and a current job whose
status is `running` or `paused` is still in the queue array (dispatch sets
the current reference without removing the job from the queue; only a
cancel removes it, and a cancel also moves the status to `cancelled`). -/
def QueueWF (s : QState) : Prop :=
  s.queue.Nodup ∧
  (∀ j ∈ s.queue, (lookupJob s j).isSome = true) ∧
  (∀ j, s.current = some j →
    (statusOf s j = some .running ∨ statusOf s j = some .paused) → j ∈ s.queue)

/-- The completed counters of a progress-event list are non-decreasing. -/
def chainCompleted (l : List ScanProgress) : Prop :=
  List.Chain' (fun a b => a.completed ≤ b.completed) l

instance : IsTrans ScanProgress (fun a b => a.completed ≤ b.completed) :=
  ⟨fun _ _ _ hab hbc => le_trans hab hbc⟩

/-- What `runScan` guarantees about an emitted event script: every event
keeps `completed ≤ total`, the completed counters are non-decreasing, and
when the run resolves the last event has `completed = total`. -/
def ScriptOK (l : List ScanProgress) (ok : Bool) : Prop :=
  (∀ e ∈ l, e.completed ≤ e.total) ∧ chainCompleted l ∧
  (ok = true → ∃ e, l.getLast? = some e ∧ e.completed = e.total)

/-- Relation between a job's stored script, its in-flight engine and the
accepted progress log, invariant under every queue event: the script is
engine-generated (`ScriptOK`); while an engine is in flight the script
splits into an already-emitted prefix (of which the accepted log is a
sublist — a paused or cancelled job discards events) and the engine's
remaining events; with no engine in flight the log is a sublist of the
script, and a still-queued job has an empty log. -/
def JobLogInv (s : QState) (jid : String) : Prop :=
  match lookupJob s jid with
  | none => progressLogOf s jid = [] ∧ engineFor s jid = none
  | some job =>
    ScriptOK job.script job.engineOk ∧
    (match engineFor s jid with
      | some e => ¬job.status = JobStatus.queued ∧ e.engineOk = job.engineOk ∧
          ∃ pre, job.script = pre ++ e.rest ∧ List.Sublist (progressLogOf s jid) pre
      | none => List.Sublist (progressLogOf s jid) job.script ∧
          (job.status = JobStatus.queued → progressLogOf s jid = []))

/-- Phase of a job that is never paused and never cancelled: queued with an
empty log, running with the log an exact prefix of the script (nothing is
discarded), or settled with the log equal to the whole script and the
status reflecting the engine outcome. -/
def JobPhase (s : QState) (jid : String) : Prop :=
  match lookupJob s jid with
  | none => progressLogOf s jid = [] ∧ engineFor s jid = none
  | some job =>
    match job.status with
    | .queued => progressLogOf s jid = [] ∧ engineFor s jid = none
    | .running => ∃ e, engineFor s jid = some e ∧ e.engineOk = job.engineOk ∧
        progressLogOf s jid ++ e.rest = job.script
    | .completed => engineFor s jid = none ∧ progressLogOf s jid = job.script ∧
        job.engineOk = true
    | .failed => engineFor s jid = none ∧ progressLogOf s jid = job.script ∧
        job.engineOk = false
    | .paused => False
    | .cancelled => False

/-- Concrete run environment with one query and one provider whose call
succeeds: the engine emits three progress events (the cell, `Evaluating
responses...` and `Scan completed`) and resolves. -/
def envC9 : RunEnv :=
  { envC4a with queries := [⟨"best tools"⟩] }

/-- Trace for claim C8: job A (whose engine rejects at once) is enqueued
and dispatched, B and C are queued behind it, A is cancelled (freeing the
current-job slot), the deferred `processNext` dispatches B, then A's
still-pending engine promise settles — its continuation unconditionally
clears the current-job slot — and the next deferred `processNext`
dispatches C while B is still running. -/
def traceC8 : List QEvent :=
  [.enqueueScan "A" "p" envC4a, .enqueueScan "B" "p" envC4a, .enqueueScan "C" "p" envC4a,
    .cancelScan "A", .processNext, .engineReturn "A", .processNext]

/-- Trace for claim C6: a job with a two-cell run is dispatched, its engine
emits the first cell's progress event, and the job is cancelled
mid-run. -/
def traceC6 : List QEvent :=
  [.enqueueScan "A" "p" envC5, .engineProgress "A", .cancelScan "A"]

/-- Trace for claim C7: a running job is paused, then cancelled. -/
def traceC7 : List QEvent :=
  [.enqueueScan "A" "p" envC5, .pauseScan "A", .cancelScan "A"]

/-- Trace for claim C9: a one-cell run is dispatched and emits its first
progress event, the job is paused, the engine (which has no checkpoint)
keeps going — its remaining two events are discarded by the
status-guarded callback — and its promise then resolves, which marks the
job completed. -/
def traceC9 : List QEvent :=
  [.enqueueScan "A" "p" envC9, .engineProgress "A", .pauseScan "A",
    .engineProgress "A", .engineProgress "A", .engineReturn "A"]

/-- A pause-free run of the C9 environment: the job is dispatched, all
three engine progress events are accepted, and the engine resolves. -/
def traceC9good : List QEvent :=
  [.enqueueScan "A" "p" envC9, .engineProgress "A", .engineProgress "A",
    .engineProgress "A", .engineReturn "A"]

/-- Trace for claim C10: job A is dispatched, job B queues behind it and is
cancelled while queued. -/
def traceC10 : List QEvent :=
  [.enqueueScan "A" "p" envC5, .enqueueScan "B" "p" envC5, .cancelScan "B"]

/-- C1: for every Metrics record (with the data-model ranges: sentiment in
[-1,1], ranking position 1-10 or null, recommendation strength in [0,100])
the per-result scoring function returns the claimed weighted formula clamped
to [0,100], its value lies in [0,100], and it is deterministic. -/
theorem C1_calculateScore_formula (m : EvaluationMetrics)
    (hs1 : -1 ≤ m.sentiment_score) (hs2 : m.sentiment_score ≤ 1)
    (hrank : ∀ rp : ℚ, m.ranking_position = some rp → 1 ≤ rp ∧ rp ≤ 10)
    (hr1 : 0 ≤ m.recommendation_strength) (hr2 : m.recommendation_strength ≤ 100) :
    calculateScore m = claimedScoreC1 m ∧
    0 ≤ calculateScore m ∧ calculateScore m ≤ 100 ∧
    ∀ m' : EvaluationMetrics, m' = m → calculateScore m' = calculateScore m := by
  refine ⟨?_, ?_, ?_, fun m' h => by rw [h]⟩
  · obtain ⟨v, s, c, rp, r⟩ := m
    cases rp with
    | none =>
      simp only [calculateScore, claimedScoreC1]
      cases v <;> cases c <;> simp <;> ring_nf
    | some x =>
      obtain ⟨hx1, hx2⟩ := hrank x rfl
      have hxne : x ≠ 0 := by intro h; rw [h] at hx1; norm_num at hx1
      have hmax : max (0 : ℚ) (11 - x) = 11 - x := max_eq_right (by linarith)
      have hmin : min (10 : ℚ) (11 - x) = 11 - x := min_eq_right (by linarith)
      simp only [calculateScore, claimedScoreC1, hxne, if_true, hmax, hmin]
      cases v <;> cases c <;> simp [hxne, hmax, hmin] <;> ring_nf
  · simp only [calculateScore]
    exact le_min (by norm_num) (le_max_left 0 _)
  · simp only [calculateScore]
    exact min_le_left 100 _

/-- Witness for C1 at the concrete record
(visible, neutral sentiment, no citation, rank 3, strength 50). -/
theorem C1_witness :
    calculateScore ⟨true, 0, false, some 3, 50⟩ =
      claimedScoreC1 ⟨true, 0, false, some 3, 50⟩ ∧
    0 ≤ calculateScore ⟨true, 0, false, some 3, 50⟩ ∧
    calculateScore ⟨true, 0, false, some 3, 50⟩ ≤ 100 := by
  obtain ⟨h1, h2, h3, _⟩ := C1_calculateScore_formula ⟨true, 0, false, some 3, 50⟩
    (by norm_num) (by norm_num)
    (by rintro rp h; simp only [Option.some.injEq] at h; rw [← h]; norm_num)
    (by norm_num) (by norm_num)
  exact ⟨h1, h2, h3⟩

/-- C2: whenever the judge step fails (the judge call throws, the response
holds no brace-delimited substring, or JSON parsing fails), `evaluateResponse`
returns exactly the heuristic metrics: case-insensitive brand-variation
substring match, case-insensitive domain substring match, zero sentiment,
null ranking, recommendation strength 50 when visible else 0. -/
theorem C2_judge_fallback (judge : Except Unit String)
    (jsonParse : String → Option EvaluationMetrics)
    (aiResponse : String) (brandVariations : List String) (domain : String)
    (hfail : judge = .error () ∨
      ∃ t, judge = .ok t ∧ (extractJson t = none ∨
        ∃ j, extractJson t = some j ∧ jsonParse j = none)) :
    evaluateResponse judge jsonParse aiResponse brandVariations domain =
      { is_visible := brandVariations.any (fun b => jsIncludes (jsToLower aiResponse) (jsToLower b))
        sentiment_score := 0
        citation_found := jsIncludes (jsToLower aiResponse) (jsToLower domain)
        ranking_position := none
        recommendation_strength :=
          if brandVariations.any (fun b => jsIncludes (jsToLower aiResponse) (jsToLower b)) then 50
          else 0 } := by
  have hfb : fallbackMetrics aiResponse brandVariations domain =
      { is_visible := brandVariations.any (fun b => jsIncludes (jsToLower aiResponse) (jsToLower b))
        sentiment_score := 0
        citation_found := jsIncludes (jsToLower aiResponse) (jsToLower domain)
        ranking_position := none
        recommendation_strength :=
          if brandVariations.any (fun b => jsIncludes (jsToLower aiResponse) (jsToLower b)) then 50
          else 0 } := rfl
  rcases hfail with h | ⟨t, ht, h⟩
  · rw [h]; exact hfb
  · rcases h with h | ⟨j, hj, hp⟩
    · rw [ht]; simp only [evaluateResponse, h]; exact hfb
    · rw [ht]; simp only [evaluateResponse, hj, hp]; exact hfb

/-- Witness for C2: a failing judge call on a concrete answer mentioning the
brand but not the domain. -/
theorem C2_witness :
    evaluateResponse (.error ()) (fun _ => none) "Acme rocks" ["acme"] "acme.com" =
      ⟨true, 0, false, none, 50⟩ := by
  rw [C2_judge_fallback (.error ()) (fun _ => none) "Acme rocks" ["acme"] "acme.com"
    (Or.inl rfl)]
  rfl

/-- Unfolding of the `evaluateScan` result loop: every pending result's
score is added to the total and counted, and exactly the indices whose
metrics write succeeded are appended to the persisted list. -/
theorem evalStep_foldl (env : EvalEnv) (proj : Project) (xs : List (ℕ × String))
    (a : ℚ) (n : ℕ) (l : List ℕ) :
    xs.foldl (evalStep env proj) (a, n, l) =
      (a + (xs.map (fun ir => calculateScore (evaluateResponse (env.judges ir.1)
          env.jsonParse ir.2 proj.brandVariations proj.domain))).sum,
        n + xs.length,
        l ++ (xs.filter (fun ir => env.persistMetrics ir.1)).map (fun ir => ir.1)) := by
  induction xs generalizing a n l with
  | nil => simp
  | cons x xs ih =>
    rw [List.foldl_cons, show evalStep env proj (a, n, l) x =
      (a + calculateScore (evaluateResponse (env.judges x.1) env.jsonParse x.2
          proj.brandVariations proj.domain), n + 1,
        if env.persistMetrics x.1 then l ++ [x.1] else l) from rfl]
    cases hp : env.persistMetrics x.1 <;>
      simp [hp, ih, add_assoc, List.filter_cons, Nat.add_comm, Nat.add_assoc, Nat.add_left_comm]

/-- One `cellStep` application, phrased through `cellSucceeds` and
`cellResult`. -/
theorem cellStep_eq (env : RunEnv) (total : ℕ)
    (acc : ℕ × List ScanProgress × List ScanResult) (x : ℕ × Query × ProviderSetting) :
    cellStep env total acc x =
      (acc.1 + if cellSucceeds env x then 1 else 0,
        acc.2.1 ++ [⟨total, acc.1, cellLabel x⟩],
        acc.2.2 ++ cellResult env x) := by
  simp only [cellStep]
  rcases hk : env.apiKey x.2.2.provider with _ | key
  · simp [cellSucceeds, cellResult, hk]
  · by_cases hkn : x.2.2.provider ∈ knownProviders
    · rcases hc : env.callProvider key x.2.2.provider x.2.2.model x.2.1.queryText with _ | text
      · simp [cellSucceeds, cellResult, hk, hkn, hc]
      · cases hp : env.persistResult x.1 <;> simp [cellSucceeds, cellResult, hk, hkn, hc, hp]
    · simp [cellSucceeds, cellResult, hk, hkn]

/-- Unfolding of the `runScan` cell loop: the final `completed` counter adds
one per fully successful cell, the emitted events are `cellEvents` and the
created rows are `cellResults`. -/
theorem cellStep_foldl (env : RunEnv) (total : ℕ)
    (xs : List (ℕ × Query × ProviderSetting))
    (c : ℕ) (es : List ScanProgress) (rs : List ScanResult) :
    xs.foldl (cellStep env total) (c, es, rs) =
      (c + xs.countP (cellSucceeds env), es ++ cellEvents env total xs c,
        rs ++ cellResults env xs) := by
  induction xs generalizing c es rs with
  | nil => simp [cellEvents, cellResults]
  | cons x xs ih =>
    rw [List.foldl_cons, cellStep_eq, ih]
    simp only [cellEvents, cellResults, List.countP_cons, List.flatMap_cons]
    cases hs : cellSucceeds env x <;>
      simp [hs, List.append_assoc, Nat.add_comm, Nat.add_assoc, Nat.add_left_comm]

/-- C3, counterexample: with two pending results (heuristic scores 55 and
10) where only the first result's metrics write succeeds, the code returns
the rounded mean over both results, 33, while the claim's mean over only
the persisted results is 55. -/
theorem C3_counterexample :
    evaluateScan envC3 pendingC3 = .ok (33, [0]) ∧
    claimedOverallScoreC3 envC3 projC pendingC3 = 55 ∧ (33 : ℤ) ≠ 55 := by
  have hm0 : evaluateResponse (Except.error ()) (fun _ => none) "Acme is great"
      ["acme"] "acme.com" = ⟨true, 0, false, none, 50⟩ := rfl
  have hm1 : evaluateResponse (Except.error ()) (fun _ => none) "nothing here"
      ["acme"] "acme.com" = ⟨false, 0, false, none, 0⟩ := rfl
  have hs0 : calculateScore ⟨true, 0, false, none, 50⟩ = 55 := by
    norm_num [calculateScore]
  have hs1 : calculateScore ⟨false, 0, false, none, 0⟩ = 10 := by
    norm_num [calculateScore]
  have henum : (["Acme is great", "nothing here"] : List String).enum =
      [(0, "Acme is great"), (1, "nothing here")] := rfl
  have hb0 : ((0 : ℕ) == 0) = true := rfl
  have hb1 : ((1 : ℕ) == 0) = false := rfl
  refine ⟨?_, ?_, by decide⟩
  · simp only [evaluateScan, envC3, pendingC3, projC]
    rw [evalStep_foldl]
    simp only [henum, List.map_cons, List.map_nil, List.sum_cons, List.sum_nil,
      List.filter_cons, List.filter_nil, List.length_cons, List.length_nil,
      hb0, hb1, hm0, hm1, hs0, hs1, if_true, if_false, Bool.not_true]
    norm_num [jsRound]
  · simp only [claimedOverallScoreC3, envC3, pendingC3, projC]
    simp only [henum, List.filter_cons, List.filter_nil, hb0, hb1, if_true, if_false,
      List.map_cons, List.map_nil, List.sum_cons, List.sum_nil,
      List.length_cons, List.length_nil, hm0, hs0]
    norm_num [jsRound]

/-- C3, amended: the overall score is the rounded arithmetic mean of the
per-result scores of ALL pending results (metric computation never throws;
a result whose metrics write fails has already been counted), 0 when there
is no pending result; the persisted indices are exactly those whose write
succeeded. -/
theorem C3_amended_mean (env : EvalEnv) (proj : Project) (k : String)
    (pending : List String) (h1 : env.scanFound = true)
    (h2 : env.project = some proj) (h3 : env.judgeKey = some k) :
    evaluateScan env pending = .ok
      ((if 0 < pending.length then
          jsRound ((pending.enum.map (fun ir => calculateScore (evaluateResponse
            (env.judges ir.1) env.jsonParse ir.2 proj.brandVariations proj.domain))).sum /
            (pending.length : ℚ))
        else 0),
        (pending.enum.filter (fun ir => env.persistMetrics ir.1)).map (fun ir => ir.1)) := by
  simp only [evaluateScan, h1, h2, h3, Bool.not_true, Bool.false_eq_true, if_false]
  rw [evalStep_foldl]
  simp [List.enum_length]

/-- Witness for C3's amended theorem, at the concrete environment: the mean
of 55 and 10 rounds to 33 and only result 0 is persisted. -/
theorem C3_amended_witness :
    evaluateScan envC3 pendingC3 =
      .ok ((if 0 < pendingC3.length then
          jsRound ((pendingC3.enum.map (fun ir => calculateScore (evaluateResponse
            (envC3.judges ir.1) envC3.jsonParse ir.2 projC.brandVariations projC.domain))).sum /
            (pendingC3.length : ℚ))
        else 0),
        (pendingC3.enum.filter (fun ir => envC3.persistMetrics ir.1)).map (fun ir => ir.1)) :=
  C3_amended_mean envC3 projC "k" pendingC3 rfl rfl rfl

/-- C4: with zero active queries `runScan` fails with the no-active-queries
error, and with queries but zero active providers with the
no-active-providers error; in both cases the error propagates, the scan row
is left `failed` and its score stays null. -/
theorem C4_config_errors (env : RunEnv) :
    (env.queries = [] →
      (runScan env).retval = .error .noActiveQueries ∧
      (runScan env).scanStatus = .failed ∧ (runScan env).overallScore = none) ∧
    (env.queries ≠ [] → env.providers = [] →
      (runScan env).retval = .error .noActiveProviders ∧
      (runScan env).scanStatus = .failed ∧ (runScan env).overallScore = none) := by
  constructor
  · intro h
    simp [runScan, h]
  · intro h1 h2
    simp [runScan, h1, h2]

/-- Witness for C4 at two concrete environments: one with no queries, one
with a query but no providers. -/
theorem C4_witness :
    (runScan envC4a).retval = .error .noActiveQueries ∧
    (runScan envC4b).retval = .error .noActiveProviders ∧
    (runScan envC4b).scanStatus = .failed ∧ (runScan envC4b).overallScore = none := by
  refine ⟨((C4_config_errors envC4a).1 rfl).1, ?_⟩
  have h := (C4_config_errors envC4b).2 (by decide) rfl
  exact ⟨h.1, h.2.1, h.2.2⟩

/-- C5: when the run's configuration is sound (some query, some provider,
project row present, judge key configured), `runScan` succeeds and the scan
reaches `completed` no matter how the per-cell environment behaves; the
`completed` counter counts exactly the fully successful cells, so a cell
with a missing credential or a throwing provider call is skipped without
incrementing it and without failing the run. -/
theorem C5_cell_isolation (env : RunEnv) (hq : env.queries ≠ [])
    (hp : env.providers ≠ []) (proj : Project) (k : String)
    (hproj : env.project = some proj) (hkey : env.apiKey "openai" = some k) :
    (runScan env).retval = .ok () ∧ (runScan env).scanStatus = .completed ∧
    (runScan env).completed = (runCells env).countP (cellSucceeds env) := by
  have hq' : env.queries.isEmpty = false := by
    cases hqs : env.queries with
    | nil => exact absurd hqs hq
    | cons a l => rfl
  have hp' : env.providers.isEmpty = false := by
    cases hps : env.providers with
    | nil => exact absurd hps hp
    | cons a l => rfl
  simp only [runScan, hq', hp', Bool.false_eq_true, if_false]
  rw [cellStep_foldl]
  simp only [evaluateScan, evalEnvOf, hproj, hkey, Bool.not_true, Bool.false_eq_true, if_false]
  simp

/-- Witness for C5 at the concrete two-provider environment where the
second provider's call throws: the run completes with one successful
cell. -/
theorem C5_witness :
    (runScan envC5).retval = .ok () ∧ (runScan envC5).scanStatus = .completed ∧
    (runScan envC5).completed = 1 := by
  obtain ⟨h1, h2, h3⟩ := C5_cell_isolation envC5 (by decide) (by decide) projC "k" rfl rfl
  refine ⟨h1, h2, ?_⟩
  rw [h3]
  decide

/-- C6: cancelling the running job frees the current-job slot at once and
marks the job cancelled — but the engine is not stopped: its in-flight run
still holds three unemitted events after the cancel, a further engine step
still consumes the next matrix-cell event, and when the run finally
settles it even overwrites the cancelled status with `completed`.  The
engine consults no cancellation state: `runScan` never receives the
`AbortController` the queue creates. -/
theorem C6_cancel_does_not_stop_engine :
    (qrun traceC6).current = none ∧
    statusOf (qrun traceC6) "A" = some .cancelled ∧
    (engineFor (qrun traceC6) "A").map (fun e => e.rest.length) = some 3 ∧
    (engineFor (qrun (traceC6 ++ [.engineProgress "A"])) "A").map
      (fun e => e.rest.length) = some 2 ∧
    statusOf (qrun (traceC6 ++ [.engineProgress "A", .engineProgress "A",
      .engineProgress "A", .engineReturn "A"])) "A" = some .completed := by
  decide

/-- C7, counterexample: after pausing the running job and then cancelling
it, the job is cancelled and gone from the queue, but the current-job slot
still holds it — `cancelScan` clears the slot only when the job's status
is `running`, and a paused job's status is not. -/
theorem C7_counterexample :
    statusOf (qrun traceC7) "A" = some .cancelled ∧
    "A" ∉ (qrun traceC7).queue ∧
    (qrun traceC7).current = some "A" := by
  decide

/-- `find?` over an id-keyed update of an association list. -/
theorem find?_upd (l : List (String × Job)) (jid tgt : String) (f : Job → Job) :
    (l.map (fun p => if p.1 == jid then (p.1, f p.2) else p)).find?
        (fun p => p.1 == tgt) =
      if tgt = jid then (l.find? (fun p => p.1 == tgt)).map (fun p => (p.1, f p.2))
      else l.find? (fun p => p.1 == tgt) := by
  induction l with
  | nil => by_cases h : tgt = jid <;> simp [h]
  | cons p l ih =>
    simp only [beq_iff_eq] at ih
    by_cases h1 : p.1 = jid <;> by_cases h2 : p.1 = tgt
    · have h3 : tgt = jid := h2 ▸ h1
      simp [List.find?_cons, h1, h2, h3, -List.find?_map]
    · have h3 : ¬tgt = jid := fun hc => h2 (h1.trans hc.symm)
      have h4 : (jid == tgt) = false := beq_eq_false_iff_ne.mpr (fun hc => h3 hc.symm)
      simp [List.find?_cons, h1, h2, h3, h4, ih, -List.find?_map]
    · have h3 : ¬tgt = jid := fun hc => h1 (h2.trans hc)
      simp [List.find?_cons, h1, h2, h3, ih, -List.find?_map]
    · simp [List.find?_cons, h1, h2, ih, -List.find?_map]

/-- `lookupJob` after `setJob`. -/
theorem lookupJob_setJob (s : QState) (jid tgt : String) (f : Job → Job) :
    lookupJob (setJob s jid f) tgt =
      if tgt = jid then (lookupJob s tgt).map f else lookupJob s tgt := by
  simp only [lookupJob, setJob]
  rw [find?_upd]
  by_cases h : tgt = jid <;>
    cases hf : s.jobs.find? (fun p => p.1 == tgt) <;> simp [h, hf]

/-- A found job is a stored job. -/
theorem findJob_eq_lookup (s : QState) (jid : String) (job : Job)
    (h : findJob s jid = some job) : lookupJob s jid = some job := by
  unfold findJob at h
  split_ifs at h <;> simp_all

/-- `lookupJob` reads only the job store. -/
theorem lookupJob_eq_of_jobs (s t : QState) (h : s.jobs = t.jobs) (jid : String) :
    lookupJob s jid = lookupJob t jid := by
  simp [lookupJob, h]

/-- C7, amended: cancelling a job found in state `queued` or `paused` sets
its status to `cancelled` and removes it from the queue immediately, and
the cancel step itself performs no dispatch — the current-job reference,
the in-flight engines and the pause flag are all unchanged.  In
particular, after pause-then-cancel the current-job slot still holds the
cancelled job (it is freed only when the job's engine call settles), and
the pause flag stays set. -/
theorem C7_cancel_queued_or_paused (s : QState) (jid : String)
    (h : (findJob s jid).map Job.status = some .queued ∨
      (findJob s jid).map Job.status = some .paused) :
    statusOf (qstep s (.cancelScan jid)) jid = some .cancelled ∧
    jid ∉ (qstep s (.cancelScan jid)).queue ∧
    (qstep s (.cancelScan jid)).current = s.current ∧
    (qstep s (.cancelScan jid)).engines = s.engines ∧
    (qstep s (.cancelScan jid)).isPaused = s.isPaused := by
  obtain ⟨job, hfind, hst⟩ : ∃ job, findJob s jid = some job ∧
      (job.status = .queued ∨ job.status = .paused) := by
    cases hf : findJob s jid with
    | none => rw [hf] at h; simp at h
    | some j =>
      rw [hf] at h
      simp at h
      rcases h with h | h
      · exact ⟨j, rfl, Or.inl h⟩
      · exact ⟨j, rfl, Or.inr h⟩
  have hrun : ¬job.status = .running := by
    rcases hst with h' | h' <;> simp [h']
  have hlook : lookupJob s jid = some job := findJob_eq_lookup s jid job hfind
  simp only [qstep, hfind, hrun, if_false, if_neg hrun]
  refine ⟨?_, ?_, rfl, rfl, rfl⟩
  · show (lookupJob (setJob s jid (fun j => { j with status := JobStatus.cancelled }))
        jid).map Job.status = some JobStatus.cancelled
    rw [lookupJob_setJob, if_pos rfl, hlook]
    rfl
  · simp [List.mem_filter]

/-- Witness for C7's amended theorem: pause a running one-query job, then
cancel it; the job is cancelled and out of the queue while the current-job
slot still points at it. -/
theorem C7_witness :
    statusOf (qstep (qrun [.enqueueScan "A" "p" envC5, .pauseScan "A"])
        (.cancelScan "A")) "A" = some .cancelled ∧
    "A" ∉ (qstep (qrun [.enqueueScan "A" "p" envC5, .pauseScan "A"])
        (.cancelScan "A")).queue ∧
    (qstep (qrun [.enqueueScan "A" "p" envC5, .pauseScan "A"])
        (.cancelScan "A")).current = some "A" := by
  have h := C7_cancel_queued_or_paused
    (qrun [.enqueueScan "A" "p" envC5, .pauseScan "A"]) "A" (Or.inr (by decide))
  exact ⟨h.1, h.2.1, h.2.2.1.trans (by decide)⟩

/-- `setJob` never changes whether a job exists. -/
theorem isSome_lookupJob_setJob (s : QState) (jid tgt : String) (f : Job → Job) :
    (lookupJob (setJob s jid f) tgt).isSome = (lookupJob s tgt).isSome := by
  rw [lookupJob_setJob]
  split <;> simp

/-- `setJob` with a status-preserving update never changes a status. -/
theorem statusOf_setJob_keep (s : QState) (jid tgt : String) (f : Job → Job)
    (hf : ∀ j, (f j).status = j.status) :
    statusOf (setJob s jid f) tgt = statusOf s tgt := by
  simp only [statusOf, lookupJob_setJob]
  split
  · cases lookupJob s tgt <;> simp [hf]
  · rfl

/-- `setJob` on one id never changes another id's status. -/
theorem statusOf_setJob_other (s : QState) (jid tgt : String) (f : Job → Job)
    (h : ¬tgt = jid) : statusOf (setJob s jid f) tgt = statusOf s tgt := by
  simp [statusOf, lookupJob_setJob, h]

/-- A lookup that succeeds still succeeds after appending to the store. -/
theorem lookupJob_append_of_some (s t : QState) (l2 : List (String × Job))
    (tgt : String) (hjobs : t.jobs = s.jobs ++ l2) (x : Job)
    (hx : lookupJob s tgt = some x) : lookupJob t tgt = some x := by
  simp only [lookupJob, hjobs, List.find?_append]
  simp only [lookupJob] at hx
  cases hf : s.jobs.find? (fun p => p.1 == tgt) with
  | none => rw [hf] at hx; simp at hx
  | some p => rw [hf] at hx; simp_all

/-- A lookup that fails finds only the newly appended job. -/
theorem lookupJob_append_fresh (s t : QState) (jid : String) (job : Job)
    (tgt : String) (hjobs : t.jobs = s.jobs ++ [(jid, job)])
    (hnone : lookupJob s tgt = none) :
    lookupJob t tgt = if tgt = jid then some job else none := by
  simp only [lookupJob, hjobs, List.find?_append]
  simp only [lookupJob] at hnone
  cases hf : s.jobs.find? (fun p => p.1 == tgt) with
  | none =>
    by_cases h : tgt = jid
    · simp [h, List.find?_cons, -List.find?_map]
    · have h' : (jid == tgt) = false := beq_eq_false_iff_ne.mpr (fun hc => h hc.symm)
      simp [h, h', List.find?_cons, -List.find?_map]
  | some p => rw [hf] at hnone; simp at hnone

/-- Queue well-formedness depends only on the store, the queue array and
the current reference. -/
theorem QueueWF_congr (s t : QState) (hjobs : t.jobs = s.jobs)
    (hq : t.queue = s.queue) (hc : t.current = s.current) (h : QueueWF s) :
    QueueWF t := by
  obtain ⟨h1, h2, h3⟩ := h
  refine ⟨by rw [hq]; exact h1, ?_, ?_⟩
  · intro j hj
    rw [lookupJob_eq_of_jobs t s hjobs j]
    exact h2 j (by rwa [hq] at hj)
  · intro j hcur hst
    rw [hq]
    apply h3 j (by rwa [hc] at hcur)
    rwa [show statusOf t j = statusOf s j from by
      simp [statusOf, lookupJob_eq_of_jobs t s hjobs j]] at hst

/-- A status-preserving job update preserves queue well-formedness. -/
theorem QueueWF_update_keep (s t : QState) (jid : String) (f : Job → Job)
    (hf : ∀ j, (f j).status = j.status)
    (hjobs : t.jobs = (setJob s jid f).jobs)
    (hq : t.queue = s.queue) (hc : t.current = s.current)
    (h : QueueWF s) : QueueWF t := by
  obtain ⟨h1, h2, h3⟩ := h
  have hlook : ∀ tgt, lookupJob t tgt = lookupJob (setJob s jid f) tgt :=
    fun tgt => lookupJob_eq_of_jobs t (setJob s jid f) hjobs tgt
  refine ⟨by rw [hq]; exact h1, ?_, ?_⟩
  · intro j hj
    rw [hlook j, isSome_lookupJob_setJob]
    exact h2 j (by rwa [hq] at hj)
  · intro j hcur hst
    rw [hq]
    apply h3 j (by rwa [hc] at hcur)
    rwa [show statusOf t j = statusOf s j from by
      rw [show statusOf t j = statusOf (setJob s jid f) j from by
        simp [statusOf, hlook j]]
      exact statusOf_setJob_keep s jid j f hf] at hst

/-- Setting one job's status preserves well-formedness, provided a current
job moved into `running` or `paused` is known to be queued. -/
theorem QueueWF_update_status (s t : QState) (jid : String) (st : JobStatus)
    (hjobs : t.jobs = (setJob s jid (fun j => { j with status := st })).jobs)
    (hq : t.queue = s.queue) (hc : t.current = s.current)
    (hok : (st = .running ∨ st = .paused) → s.current = some jid → jid ∈ s.queue)
    (h : QueueWF s) : QueueWF t := by
  obtain ⟨h1, h2, h3⟩ := h
  have hlook : ∀ tgt, lookupJob t tgt =
      lookupJob (setJob s jid (fun j => { j with status := st })) tgt :=
    fun tgt => lookupJob_eq_of_jobs t _ hjobs tgt
  refine ⟨by rw [hq]; exact h1, ?_, ?_⟩
  · intro j hj
    rw [hlook j, isSome_lookupJob_setJob]
    exact h2 j (by rwa [hq] at hj)
  · intro j hcur hst
    rw [hq]
    rw [hc] at hcur
    by_cases hj : j = jid
    · subst hj
      refine hok ?_ hcur
      have hts : statusOf t j = (lookupJob s j).map (fun _ => st) := by
        simp only [statusOf, hlook j, lookupJob_setJob, if_pos rfl]
        cases lookupJob s j <;> rfl
      rw [hts] at hst
      cases hl : lookupJob s j <;> rw [hl] at hst <;>
        rcases hst with hst | hst <;> simp at hst <;> simp [hst]
    · apply h3 j hcur
      rwa [show statusOf t j = statusOf s j from by
        rw [show statusOf t j = statusOf (setJob s jid
          (fun x => { x with status := st })) j from by simp [statusOf, hlook j]]
        exact statusOf_setJob_other s jid j _ hj] at hst

/-- Any job update with a cleared current slot preserves well-formedness
when the queue only shrinks. -/
theorem QueueWF_nocurrent (s t : QState) (jid : String) (f : Job → Job)
    (hjobs : t.jobs = (setJob s jid f).jobs)
    (hsub : ∀ j, j ∈ t.queue → j ∈ s.queue) (hnd : t.queue.Nodup)
    (hc : t.current = none) (h : QueueWF s) : QueueWF t := by
  obtain ⟨h1, h2, h3⟩ := h
  refine ⟨hnd, ?_, ?_⟩
  · intro j hj
    rw [lookupJob_eq_of_jobs t (setJob s jid f) hjobs j, isSome_lookupJob_setJob]
    exact h2 j (hsub j hj)
  · intro j hcur _
    rw [hc] at hcur
    simp at hcur

/-- Cancelling a non-running job (current slot untouched, job removed from
the queue, status set to cancelled) preserves well-formedness. -/
theorem QueueWF_cancel_keep (s t : QState) (jid : String)
    (hjobs : t.jobs = (setJob s jid (fun j => { j with status := .cancelled })).jobs)
    (hq : t.queue = s.queue.filter (fun j => j ≠ jid)) (hc : t.current = s.current)
    (h : QueueWF s) : QueueWF t := by
  obtain ⟨h1, h2, h3⟩ := h
  have hlook : ∀ tgt, lookupJob t tgt =
      lookupJob (setJob s jid (fun j => { j with status := .cancelled })) tgt :=
    fun tgt => lookupJob_eq_of_jobs t _ hjobs tgt
  refine ⟨by rw [hq]; exact List.Nodup.filter _ h1, ?_, ?_⟩
  · intro j hj
    rw [hq, List.mem_filter] at hj
    rw [hlook j, isSome_lookupJob_setJob]
    exact h2 j hj.1
  · intro j hcur hst
    rw [hc] at hcur
    by_cases hj : j = jid
    · subst hj
      exfalso
      have hts : statusOf t j = (lookupJob s j).map (fun _ => JobStatus.cancelled) := by
        simp only [statusOf, hlook j, lookupJob_setJob, if_pos rfl]
        cases lookupJob s j <;> rfl
      rw [hts] at hst
      cases hl : lookupJob s j <;> rw [hl] at hst <;>
        rcases hst with hst | hst <;> simp at hst
    · rw [hq, List.mem_filter]
      refine ⟨h3 j hcur ?_, by simp [hj]⟩
      rwa [show statusOf t j = statusOf s j from by
        rw [show statusOf t j = statusOf (setJob s jid
          (fun x => { x with status := JobStatus.cancelled })) j from by
            simp [statusOf, hlook j]]
        exact statusOf_setJob_other s jid j _ hj] at hst

/-- Appending a fresh queued job preserves well-formedness. -/
theorem QueueWF_enqueue (s t : QState) (jid : String) (job : Job)
    (hjobs : t.jobs = s.jobs ++ [(jid, job)]) (hq : t.queue = s.queue ++ [jid])
    (hc : t.current = s.current) (hnone : lookupJob s jid = none)
    (hjob : job.status = .queued) (h : QueueWF s) : QueueWF t := by
  obtain ⟨h1, h2, h3⟩ := h
  have hnotin : jid ∉ s.queue := fun hin => by
    have := h2 jid hin
    rw [hnone] at this
    simp at this
  refine ⟨?_, ?_, ?_⟩
  · rw [hq, List.nodup_append]
    exact ⟨h1, List.nodup_singleton jid,
      fun a ha hb => hnotin ((List.mem_singleton.mp hb) ▸ ha)⟩
  · intro j hj
    rw [hq, List.mem_append, List.mem_singleton] at hj
    rcases hj with hj | hj
    · have := h2 j hj
      cases hl : lookupJob s j with
      | none => rw [hl] at this; simp at this
      | some x => rw [lookupJob_append_of_some s t _ j hjobs x hl]; rfl
    · subst hj
      rw [lookupJob_append_fresh s t j job j hjobs hnone, if_pos rfl]
      rfl
  · intro j hcur hst
    rw [hc] at hcur
    rw [hq]
    refine List.mem_append_left _ (h3 j hcur ?_)
    cases hl : lookupJob s j with
    | none =>
      exfalso
      have ht : lookupJob t j = if j = jid then some job else none :=
        lookupJob_append_fresh s t jid job j hjobs hl
      by_cases hj : j = jid
      · have hts : statusOf t j = some job.status := by
          simp only [statusOf]
          rw [ht, if_pos hj]
          rfl
        rw [hts, hjob] at hst
        rcases hst with hst | hst <;> simp at hst
      · have hts : statusOf t j = none := by simp [statusOf, ht, hj]
        rw [hts] at hst
        rcases hst with hst | hst <;> simp at hst
    | some x =>
      have ht : lookupJob t j = some x := lookupJob_append_of_some s t _ j hjobs x hl
      rwa [show statusOf t j = statusOf s j from by simp [statusOf, ht, hl]] at hst

/-- `dispatch` preserves queue well-formedness. -/
theorem QueueWF_dispatch (s : QState) (h : QueueWF s) : QueueWF (dispatch s) := by
  unfold dispatch
  split
  · exact h
  · split
    · exact h
    · rename_i jid hfind
      split
      · exact h
      · rename_i job hlook
        obtain ⟨h1, h2, h3⟩ := h
        refine ⟨h1, ?_, ?_⟩
        · intro j hj
          show (lookupJob (setJob s jid
            (fun j => { j with status := JobStatus.running })) j).isSome = true
          rw [isSome_lookupJob_setJob]
          exact h2 j hj
        · intro j hcur _
          have hj : jid = j := by simpa using hcur
          subst hj
          exact List.mem_of_find?_eq_some hfind

/-- Every queue event preserves queue well-formedness. -/
theorem QueueWF_qstep (s : QState) (ev : QEvent) (h : QueueWF s) :
    QueueWF (qstep s ev) := by
  cases ev with
  | enqueueScan jid pid env =>
    simp only [qstep]
    split
    · exact h
    · rename_i hfresh
      have hnone : lookupJob s jid = none := by
        cases hl : lookupJob s jid with
        | none => rfl
        | some x => rw [hl] at hfresh; simp at hfresh
      split
      · apply QueueWF_dispatch
        exact QueueWF_enqueue s _ jid _ rfl rfl rfl hnone rfl h
      · exact QueueWF_enqueue s _ jid _ rfl rfl rfl hnone rfl h
  | pauseScan jid =>
    simp only [qstep]
    split
    · exact h
    · rename_i job hfind
      split
      · rename_i hrun
        have hlook := findJob_eq_lookup s jid job hfind
        refine QueueWF_update_status s _ jid .paused rfl rfl rfl ?_ h
        intro _ hcur
        exact h.2.2 jid hcur (Or.inl (by simp [statusOf, hlook, hrun]))
      · exact h
  | resumeScan jid =>
    simp only [qstep]
    split
    · exact h
    · rename_i job hfind
      split
      · rename_i hpaused
        have hlook := findJob_eq_lookup s jid job hfind
        apply QueueWF_dispatch
        refine QueueWF_update_status s _ jid .running rfl rfl rfl ?_ h
        intro _ hcur
        exact h.2.2 jid hcur (Or.inr (by simp [statusOf, hlook, hpaused]))
      · exact h
  | cancelScan jid =>
    simp only [qstep]
    split
    · exact h
    · rename_i job hfind
      split
      · rename_i hrun
        refine QueueWF_nocurrent { s with current := none } _ jid
          (fun j => { j with status := JobStatus.cancelled }) rfl ?_ ?_ rfl ?_
        · intro j hj
          rw [List.mem_filter] at hj
          exact hj.1
        · exact List.Nodup.filter _ h.1
        · exact ⟨h.1, h.2.1, fun j hcur _ => absurd hcur (by simp)⟩
      · exact QueueWF_cancel_keep s _ jid rfl rfl rfl h
  | processNext => exact QueueWF_dispatch s h
  | engineProgress jid =>
    simp only [qstep]
    split
    · exact h
    · rename_i e hfind
      split
      · exact h
      · rename_i p rest heq
        split
        · exact QueueWF_update_keep { s with engines := s.engines.map (fun e2 =>
            if e2.jid == jid then { e2 with rest := rest } else e2) } _ jid
            (fun j => { j with progress := p }) (fun _ => rfl) rfl rfl rfl
            (QueueWF_congr _ s rfl rfl rfl h)
        · exact QueueWF_congr _ s rfl rfl rfl h
  | engineReturn jid =>
    simp only [qstep]
    split
    · exact h
    · rename_i e hfind
      split
      · exact h
      · exact QueueWF_nocurrent s _ jid
          (fun j => { j with status := if e.engineOk then .completed else .failed })
          rfl (fun j hj => hj) h.1 rfl h

/-- Every reachable queue state is well-formed. -/
theorem QueueWF_qrun (evs : List QEvent) : QueueWF (qrun evs) := by
  have hgen : ∀ (l : List QEvent) (s : QState), QueueWF s → QueueWF (l.foldl qstep s) := by
    intro l
    induction l with
    | nil => intro s hs; exact hs
    | cons ev l ih => intro s hs; exact ih _ (QueueWF_qstep s ev hs)
  refine hgen evs qinit ⟨List.nodup_nil, ?_, ?_⟩ <;> intro j hj <;> simp [qinit] at hj

/-- C10, amended: a job that is the current job with status `running` or
`paused` (the normal dispatched case) appears exactly twice in
`getAllJobs()`, because dispatch sets the current-job reference without
removing the job from the queue array and `getAllJobs` returns the queue
concatenated with the current job; a job in the queue that is not current
appears exactly once; and a job in neither — in particular one cancelled
while queued or while running — appears zero times. -/
theorem C10_getAllJobs_multiplicity (evs : List QEvent) (jid : String) :
    ((qrun evs).current = some jid →
      (statusOf (qrun evs) jid = some .running ∨ statusOf (qrun evs) jid = some .paused) →
      (getAllJobs (qrun evs)).count jid = 2) ∧
    (jid ∈ (qrun evs).queue → (qrun evs).current ≠ some jid →
      (getAllJobs (qrun evs)).count jid = 1) ∧
    (jid ∉ (qrun evs).queue → (qrun evs).current ≠ some jid →
      (getAllJobs (qrun evs)).count jid = 0) := by
  obtain ⟨h1, h2, h3⟩ := QueueWF_qrun evs
  refine ⟨?_, ?_, ?_⟩
  · intro hc hst
    have hm : jid ∈ (qrun evs).queue := h3 jid hc hst
    rw [getAllJobs, List.count_append, List.count_eq_one_of_mem h1 hm, hc]
    simp
  · intro hm hnc
    rw [getAllJobs, List.count_append, List.count_eq_one_of_mem h1 hm]
    cases hcur : (qrun evs).current with
    | none => rfl
    | some k =>
      have hk : ¬jid = k := fun he => hnc (by rw [hcur, he])
      simp [hk]
  · intro hnm hnc
    rw [getAllJobs, List.count_append, List.count_eq_zero.mpr hnm]
    cases hcur : (qrun evs).current with
    | none => rfl
    | some k =>
      have hk : ¬jid = k := fun he => hnc (by rw [hcur, he])
      simp [hk]

/-- Witness for C10's amended theorem: a freshly dispatched running job is
listed twice by `getAllJobs`. -/
theorem C10_witness :
    (getAllJobs (qrun [.enqueueScan "A" "p" envC5])).count "A" = 2 :=
  (C10_getAllJobs_multiplicity [.enqueueScan "A" "p" envC5] "A").1 (by decide)
    (Or.inl (by decide))

/-- C8: after cancelling a running job, dispatching the next one, and then
having the cancelled job's still-pending engine promise settle (its
continuation clears the current-job slot unconditionally), a further
deferred dispatch starts a third job while the second is still running:
two distinct jobs hold status `running` at once. -/
theorem C8_two_jobs_running :
    statusOf (qrun traceC8) "B" = some .running ∧
    statusOf (qrun traceC8) "C" = some .running ∧
    ("B" : String) ≠ "C" ∧
    (qrun traceC8).jobs.countP (fun p => p.2.status == .running) = 2 := by
  decide

/-- C9, counterexample: a job is paused mid-run; the engine keeps emitting
(there is no checkpoint), the status-guarded callback discards the late
events, and when the engine settles the job is marked `completed` — so the
job ends `completed` while its final observed progress event has
`completed = 0 ≠ 1 = total`. -/
theorem C9_counterexample :
    statusOf (qrun traceC9) "A" = some .completed ∧
    (progressLogOf (qrun traceC9) "A").map (fun e => (e.total, e.completed)) = [(1, 0)] ∧
    ((progressLogOf (qrun traceC9) "A").getLast?).map
      (fun e => decide (e.completed = e.total)) = some false := by
  decide

/-- C10, counterexample: a job cancelled while queued is removed from the
queue and referenced nowhere, so `getAllJobs` contains it zero times, not
once. -/
theorem C10_counterexample :
    statusOf (qrun traceC10) "B" = some .cancelled ∧
    (getAllJobs (qrun traceC10)).count "B" = 0 := by
  decide

/-- Per-event bounds and monotonicity of the cell loop's emissions: every
event carries the loop's `total`, its completed counter lies between the
entry counter and the entry counter plus the number of remaining cells, and
the counters are non-decreasing. -/
theorem cellEvents_bounds (env : RunEnv) (total : ℕ)
    (xs : List (ℕ × Query × ProviderSetting)) (c : ℕ) :
    (∀ e ∈ cellEvents env total xs c, e.total = total ∧ c ≤ e.completed ∧
      e.completed ≤ c + xs.length) ∧ chainCompleted (cellEvents env total xs c) := by
  induction xs generalizing c with
  | nil => exact ⟨by simp [cellEvents], by simp [cellEvents, chainCompleted]⟩
  | cons x xs ih =>
    obtain ⟨ihm, ihc⟩ := ih (c + if cellSucceeds env x then 1 else 0)
    have hble : (if cellSucceeds env x then 1 else 0) ≤ 1 := by split <;> simp
    constructor
    · intro e he
      rw [show cellEvents env total (x :: xs) c = ⟨total, c, cellLabel x⟩ ::
        cellEvents env total xs (c + if cellSucceeds env x then 1 else 0) from rfl] at he
      rcases List.mem_cons.mp he with rfl | he
      · exact ⟨rfl, Nat.le_refl c, by simp⟩
      · obtain ⟨h1, h2, h3⟩ := ihm e he
        refine ⟨h1, Nat.le_trans (Nat.le_add_right c _) h2, ?_⟩
        simp only [List.length_cons]
        omega
    · rw [show cellEvents env total (x :: xs) c = ⟨total, c, cellLabel x⟩ ::
        cellEvents env total xs (c + if cellSucceeds env x then 1 else 0) from rfl]
      rw [chainCompleted, List.chain'_cons']
      refine ⟨?_, ihc⟩
      intro y hy
      exact Nat.le_trans (Nat.le_add_right c _)
        (ihm y (List.mem_of_mem_head? hy)).2.1

/-- The query-major cell list has one cell per (query, provider) pair. -/
theorem length_flatMap_cells (qs : List Query) (ps : List ProviderSetting) :
    (qs.flatMap (fun q => ps.map (fun p => (q, p)))).length = qs.length * ps.length := by
  induction qs with
  | nil => simp
  | cons q qs ih =>
    simp only [List.flatMap_cons, List.length_append, List.length_map, ih,
      List.length_cons]
    ring

/-- `runCells` enumerates `|Q| × |P|` cells. -/
theorem length_runCells (env : RunEnv) :
    (runCells env).length = env.queries.length * env.providers.length := by
  rw [runCells, List.enum_length]
  exact length_flatMap_cells env.queries env.providers

/-- An element of `getLast?` is an element of the list. -/
theorem mem_of_getLast?' {α : Type} {l : List α} {x : α} (h : x ∈ l.getLast?) : x ∈ l := by
  obtain ⟨hne, rfl⟩ := List.mem_getLast?_eq_getLast h
  exact List.getLast_mem hne

/-- The engine's emitted event script always keeps `completed ≤ total` and
non-decreasing, and ends on `completed = total` whenever the run
resolves. -/
theorem runScan_events_ok (env : RunEnv) :
    ScriptOK (runScan env).progressEvents (exceptOk (runScan env).retval) := by
  by_cases hq : env.queries.isEmpty
  · refine ⟨by simp [runScan, hq], by simp [runScan, hq, chainCompleted], ?_⟩
    intro hok
    simp [runScan, hq, exceptOk] at hok
  · by_cases hp : env.providers.isEmpty
    · refine ⟨by simp [runScan, hq, hp], by simp [runScan, hq, hp, chainCompleted], ?_⟩
      intro hok
      simp [runScan, hq, hp, exceptOk] at hok
    · have hlen : (runCells env).length = env.queries.length * env.providers.length :=
        length_runCells env
      obtain ⟨hmem, hchain⟩ := cellEvents_bounds env
        (env.queries.length * env.providers.length) (runCells env) 0
      have hmem' : ∀ e ∈ cellEvents env (env.queries.length * env.providers.length)
          (runCells env) 0, e.completed ≤ e.total := by
        intro e he
        obtain ⟨h1, _, h3⟩ := hmem e he
        rw [h1]
        omega
      simp only [runScan, hq, hp, Bool.false_eq_true, if_false, cellStep_foldl,
        List.nil_append, Nat.zero_add]
      cases heval : evaluateScan (evalEnvOf env)
          ((cellResults env (runCells env)).map (fun res => res.aiResponseRaw)) with
      | error e =>
        simp only [heval]
        refine ⟨?_, ?_, ?_⟩
        · intro ev hev
          rcases List.mem_append.mp hev with hev | hev
          · exact hmem' ev hev
          · rw [List.mem_singleton.mp hev]
        · rw [chainCompleted, List.chain'_append]
          refine ⟨hchain, List.chain'_singleton _, ?_⟩
          intro x hx y hy
          rw [List.mem_singleton.mp (List.mem_of_mem_head? hy)]
          obtain ⟨h1, _, h3⟩ := hmem x (mem_of_getLast?' hx)
          simp
          omega
        · intro hok
          simp [exceptOk] at hok
      | ok pr =>
        simp only [heval]
        refine ⟨?_, ?_, ?_⟩
        · intro ev hev
          rcases List.mem_append.mp hev with hev | hev
          · rcases List.mem_append.mp hev with hev | hev
            · exact hmem' ev hev
            · rw [List.mem_singleton.mp hev]
          · rw [List.mem_singleton.mp hev]
        · rw [chainCompleted, List.chain'_append]
          refine ⟨?_, List.chain'_singleton _, ?_⟩
          · rw [List.chain'_append]
            refine ⟨hchain, List.chain'_singleton _, ?_⟩
            intro x hx y hy
            rw [List.mem_singleton.mp (List.mem_of_mem_head? hy)]
            obtain ⟨h1, _, h3⟩ := hmem x (mem_of_getLast?' hx)
            simp
            omega
          · intro x hx y hy
            rw [List.mem_singleton.mp (List.mem_of_mem_head? hy)]
            rw [List.getLast?_concat] at hx
            rw [← Option.mem_some_iff.mp hx]
        · intro _
          refine ⟨⟨env.queries.length * env.providers.length,
            env.queries.length * env.providers.length, "Scan completed"⟩, ?_, rfl⟩
          rw [List.getLast?_concat]

/-- `find?` by id over a rest-update of the engine list. -/
theorem find?_map_rest (l : List InFlight) (k : String) (r : List ScanProgress)
    (jid : String) :
    (l.map (fun e2 => if e2.jid == k then { e2 with rest := r } else e2)).find?
        (fun e => e.jid == jid) =
      if jid = k then (l.find? (fun e => e.jid == jid)).map (fun e => { e with rest := r })
      else l.find? (fun e => e.jid == jid) := by
  induction l with
  | nil => by_cases h : jid = k <;> simp [h]
  | cons e l ih =>
    simp only [beq_iff_eq] at ih
    by_cases h1 : e.jid = k <;> by_cases h2 : e.jid = jid
    · have h3 : jid = k := h2 ▸ h1
      simp [List.find?_cons, h1, h2, h3, -List.find?_map]
    · have h3 : ¬jid = k := fun hc => h2 (h1.trans hc.symm)
      have h4 : (k == jid) = false := beq_eq_false_iff_ne.mpr (fun hc => h3 hc.symm)
      simp [List.find?_cons, h1, h2, h3, h4, ih, -List.find?_map]
    · have h3 : ¬jid = k := fun hc => h1 (h2.trans hc)
      simp [List.find?_cons, h1, h2, h3, -List.find?_map]
    · simp [List.find?_cons, h1, h2, ih, -List.find?_map]

/-- `find?` by id over the engine list with one id's entries removed. -/
theorem find?_filter_ne (l : List InFlight) (k jid : String) :
    (l.filter (fun e2 => e2.jid ≠ k)).find? (fun e => e.jid == jid) =
      if jid = k then none else l.find? (fun e => e.jid == jid) := by
  induction l with
  | nil => by_cases h : jid = k <;> simp [h]
  | cons e l ih =>
    simp only [decide_not] at ih
    by_cases h1 : e.jid = k <;> by_cases h2 : e.jid = jid
    · have h3 : jid = k := h2 ▸ h1
      simp [List.filter_cons, List.find?_cons, h1, h2, h3, ih, -List.find?_map,
        -List.find?_filter]
    · have h3 : ¬jid = k := fun hc => h2 (h1.trans hc.symm)
      have h4 : (k == jid) = false := beq_eq_false_iff_ne.mpr (fun hc => h3 hc.symm)
      simp [List.filter_cons, List.find?_cons, h1, h2, h3, h4, ih, -List.find?_map,
        -List.find?_filter]
    · have h3 : ¬jid = k := fun hc => h1 (h2.trans hc)
      simp [List.filter_cons, List.find?_cons, h1, h2, h3, -List.find?_map,
        -List.find?_filter]
    · simp [List.filter_cons, List.find?_cons, h1, h2, ih, -List.find?_map,
        -List.find?_filter]

/-- `engineFor` reads only the engine list. -/
theorem engineFor_eq_of_engines (s t : QState) (h : t.engines = s.engines)
    (jid : String) : engineFor t jid = engineFor s jid := by
  simp [engineFor, h]

/-- Starting a fresh engine makes it the one in flight for its job. -/
theorem engineFor_append_self (s t : QState) (x : InFlight) (jid : String)
    (h : t.engines = s.engines ++ [x]) (hef : engineFor s jid = none)
    (hx : x.jid = jid) : engineFor t jid = some x := by
  simp only [engineFor, h, List.find?_append]
  simp only [engineFor] at hef
  rw [hef]
  simp [List.find?_cons, hx, -List.find?_map]

/-- Starting an engine for another job keeps an in-flight engine. -/
theorem engineFor_append_some (s t : QState) (x : InFlight) (jid : String)
    (e : InFlight) (h : t.engines = s.engines ++ [x])
    (hef : engineFor s jid = some e) : engineFor t jid = some e := by
  simp only [engineFor, h, List.find?_append]
  simp only [engineFor] at hef
  rw [hef]
  rfl

/-- Starting an engine for another job keeps the absence of one. -/
theorem engineFor_append_none (s t : QState) (x : InFlight) (jid : String)
    (h : t.engines = s.engines ++ [x]) (hef : engineFor s jid = none)
    (hx : ¬x.jid = jid) : engineFor t jid = none := by
  simp only [engineFor, h, List.find?_append]
  simp only [engineFor] at hef
  rw [hef]
  have hb : (x.jid == jid) = false := beq_eq_false_iff_ne.mpr hx
  simp [List.find?_cons, hb, -List.find?_map]

/-- `engineFor` after consuming an event from one engine's rest list. -/
theorem engineFor_map_rest (s t : QState) (k : String) (r : List ScanProgress)
    (jid : String)
    (h : t.engines = s.engines.map (fun e2 =>
      if e2.jid == k then { e2 with rest := r } else e2)) :
    engineFor t jid =
      if jid = k then (engineFor s jid).map (fun e => { e with rest := r })
      else engineFor s jid := by
  simp only [engineFor, h]
  exact find?_map_rest s.engines k r jid

/-- `engineFor` after removing one job's engine. -/
theorem engineFor_filter (s t : QState) (k jid : String)
    (h : t.engines = s.engines.filter (fun e2 => e2.jid ≠ k)) :
    engineFor t jid = if jid = k then none else engineFor s jid := by
  simp only [engineFor, h]
  exact find?_filter_ne s.engines k jid

/-- `progressLogOf` reads only the log. -/
theorem progressLogOf_eq_of_log (s t : QState) (h : t.progressLog = s.progressLog)
    (jid : String) : progressLogOf t jid = progressLogOf s jid := by
  simp [progressLogOf, h]

/-- `progressLogOf` after one accepted progress event. -/
theorem progressLogOf_append (s t : QState) (k : String) (p : ScanProgress)
    (h : t.progressLog = s.progressLog ++ [(k, p)]) (jid : String) :
    progressLogOf t jid = progressLogOf s jid ++ (if jid = k then [p] else []) := by
  simp only [progressLogOf, h, List.filter_append, List.map_append]
  congr 1
  by_cases hk : jid = k
  · subst hk
    simp [List.filter_cons]
  · have hb : (k == jid) = false := beq_eq_false_iff_ne.mpr (fun hc => hk hc.symm)
    simp [List.filter_cons, hk, hb]

/-- `JobLogInv` transports along equal job, engine and log views. -/
theorem JobLogInv_congr (s t : QState) (jid : String)
    (hl : lookupJob t jid = lookupJob s jid)
    (he : engineFor t jid = engineFor s jid)
    (hp : progressLogOf t jid = progressLogOf s jid)
    (h : JobLogInv s jid) : JobLogInv t jid := by
  unfold JobLogInv at h ⊢
  simp only [hl, he, hp]
  exact h

/-- `JobPhase` transports along equal job, engine and log views. -/
theorem JobPhase_congr (s t : QState) (jid : String)
    (hl : lookupJob t jid = lookupJob s jid)
    (he : engineFor t jid = engineFor s jid)
    (hp : progressLogOf t jid = progressLogOf s jid)
    (h : JobPhase s jid) : JobPhase t jid := by
  unfold JobPhase at h ⊢
  simp only [hl, he, hp]
  exact h

/-- `JobLogInv` across a dispatch of the job itself. -/
theorem JobLogInv_start (s t : QState) (jid : String) (job : Job)
    (hlook : lookupJob s jid = some job) (hkq : job.status = JobStatus.queued)
    (hjobs : t.jobs = (setJob s jid (fun j => { j with status := JobStatus.running })).jobs)
    (heng : t.engines = s.engines ++ [⟨jid, job.script, job.engineOk⟩])
    (hlog : t.progressLog = s.progressLog)
    (h : JobLogInv s jid) : JobLogInv t jid := by
  unfold JobLogInv at h ⊢
  simp only [hlook] at h
  obtain ⟨hok, hrest⟩ := h
  have hefn : engineFor s jid = none := by
    cases hef : engineFor s jid with
    | none => rfl
    | some e => simp only [hef] at hrest; exact absurd hkq hrest.1
  simp only [hefn] at hrest
  have hempty : progressLogOf s jid = [] := hrest.2 hkq
  have hl : lookupJob t jid = some { job with status := JobStatus.running } := by
    rw [lookupJob_eq_of_jobs t _ hjobs jid, lookupJob_setJob, if_pos rfl, hlook]
    rfl
  have he : engineFor t jid = some ⟨jid, job.script, job.engineOk⟩ :=
    engineFor_append_self s t _ jid heng hefn rfl
  have hp : progressLogOf t jid = [] := by
    rw [progressLogOf_eq_of_log s t hlog jid, hempty]
  simp only [hl, he, hp]
  refine ⟨hok, ?_, ?_, [], ?_, ?_⟩ <;> simp

/-- `JobLogInv` across a dispatch of a different job. -/
theorem JobLogInv_start_other (s t : QState) (jid k : String) (x : InFlight)
    (hjobs : t.jobs = (setJob s k (fun j => { j with status := JobStatus.running })).jobs)
    (heng : t.engines = s.engines ++ [x])
    (hlog : t.progressLog = s.progressLog)
    (hjk : ¬jid = k) (hxk : x.jid = k)
    (h : JobLogInv s jid) : JobLogInv t jid := by
  refine JobLogInv_congr s t jid ?_ ?_ (progressLogOf_eq_of_log s t hlog jid) h
  · rw [lookupJob_eq_of_jobs t _ hjobs jid, lookupJob_setJob, if_neg hjk]
  · cases hef : engineFor s jid with
    | some e => exact engineFor_append_some s t x jid e heng hef
    | none =>
      exact engineFor_append_none s t x jid heng hef
        (by rw [hxk]; exact fun hc => hjk hc.symm)

/-- `JobLogInv` across `dispatch`. -/
theorem JobLogInv_dispatch (s : QState) (jid : String) (h : JobLogInv s jid) :
    JobLogInv (dispatch s) jid := by
  unfold dispatch
  split
  · exact h
  · split
    · exact h
    · rename_i k hfind
      split
      · exact h
      · rename_i job hlook
        have hkq : job.status = JobStatus.queued := by
          simpa [hlook] using List.find?_some hfind
        by_cases hjk : jid = k
        · subst hjk
          exact JobLogInv_start s _ jid job hlook hkq rfl rfl rfl h
        · exact JobLogInv_start_other s _ jid k ⟨k, job.script, job.engineOk⟩ rfl rfl rfl
            hjk rfl h

/-- `JobLogInv` across a status write on the job itself (pause, resume,
cancel, settle — anything except back to `queued`). -/
theorem JobLogInv_set_status_self (s t : QState) (jid : String) (st : JobStatus)
    (hst : ¬st = JobStatus.queued)
    (hjobs : t.jobs = (setJob s jid (fun j => { j with status := st })).jobs)
    (heng : t.engines = s.engines) (hlog : t.progressLog = s.progressLog)
    (h : JobLogInv s jid) : JobLogInv t jid := by
  have hl : lookupJob t jid = (lookupJob s jid).map (fun j => { j with status := st }) := by
    rw [lookupJob_eq_of_jobs t _ hjobs jid, lookupJob_setJob, if_pos rfl]
  have hp := progressLogOf_eq_of_log s t hlog jid
  have he := engineFor_eq_of_engines s t heng jid
  unfold JobLogInv at h ⊢
  cases hlk : lookupJob s jid with
  | none =>
    simp only [hlk] at h
    simp only [hl, hlk, Option.map_none', hp, he]
    exact h
  | some job =>
    simp only [hlk] at h
    simp only [hl, hlk, Option.map_some', hp, he]
    obtain ⟨hok, hrest⟩ := h
    refine ⟨hok, ?_⟩
    cases hef : engineFor s jid with
    | some e =>
      simp only [hef] at hrest ⊢
      exact ⟨by simpa using hst, hrest.2.1, hrest.2.2⟩
    | none =>
      simp only [hef] at hrest ⊢
      exact ⟨hrest.1, fun hq => absurd (by simpa using hq) hst⟩

/-- `JobLogInv` across a discarded progress event of the job itself. -/
theorem JobLogInv_progress_discard (s t : QState) (jid : String) (e : InFlight)
    (p : ScanProgress) (rest : List ScanProgress)
    (hef : engineFor s jid = some e) (hre : e.rest = p :: rest)
    (hjobs : t.jobs = s.jobs)
    (heng : t.engines = s.engines.map (fun e2 =>
      if e2.jid == jid then { e2 with rest := rest } else e2))
    (hlog : t.progressLog = s.progressLog)
    (h : JobLogInv s jid) : JobLogInv t jid := by
  have hl := lookupJob_eq_of_jobs t s hjobs jid
  have hp := progressLogOf_eq_of_log s t hlog jid
  have he : engineFor t jid = some { e with rest := rest } := by
    rw [engineFor_map_rest s t jid rest jid heng, if_pos rfl, hef]
    rfl
  unfold JobLogInv at h ⊢
  cases hlk : lookupJob s jid with
  | none =>
    simp only [hlk] at h
    rw [h.2] at hef
    exact Option.noConfusion hef
  | some job =>
    simp only [hlk] at h
    obtain ⟨hok, hrest⟩ := h
    simp only [hef] at hrest
    obtain ⟨hnq, hoke, pre, hscript, hsub⟩ := hrest
    simp only [hl, hlk, he, hp]
    refine ⟨hok, hnq, hoke, pre ++ [p], ?_, ?_⟩
    · rw [hscript, hre]
      simp
    · exact hsub.trans (List.sublist_append_left pre [p])

/-- `JobLogInv` across an accepted progress event of the job itself. -/
theorem JobLogInv_progress_accept (s t : QState) (jid : String) (e : InFlight)
    (p : ScanProgress) (rest : List ScanProgress)
    (hef : engineFor s jid = some e) (hre : e.rest = p :: rest)
    (hjobs : t.jobs = (setJob s jid (fun j => { j with progress := p })).jobs)
    (heng : t.engines = s.engines.map (fun e2 =>
      if e2.jid == jid then { e2 with rest := rest } else e2))
    (hlog : t.progressLog = s.progressLog ++ [(jid, p)])
    (h : JobLogInv s jid) : JobLogInv t jid := by
  have hl : lookupJob t jid = (lookupJob s jid).map (fun j => { j with progress := p }) := by
    rw [lookupJob_eq_of_jobs t _ hjobs jid, lookupJob_setJob, if_pos rfl]
  have hp : progressLogOf t jid = progressLogOf s jid ++ [p] := by
    rw [progressLogOf_append s t jid p hlog jid, if_pos rfl]
  have he : engineFor t jid = some { e with rest := rest } := by
    rw [engineFor_map_rest s t jid rest jid heng, if_pos rfl, hef]
    rfl
  unfold JobLogInv at h ⊢
  cases hlk : lookupJob s jid with
  | none =>
    simp only [hlk] at h
    rw [h.2] at hef
    exact Option.noConfusion hef
  | some job =>
    simp only [hlk] at h
    obtain ⟨hok, hrest⟩ := h
    simp only [hef] at hrest
    obtain ⟨hnq, hoke, pre, hscript, hsub⟩ := hrest
    simp only [hl, hlk, Option.map_some', he, hp]
    refine ⟨hok, by simpa using hnq, hoke, pre ++ [p], ?_, ?_⟩
    · rw [show ({ job with progress := p } : Job).script = job.script from rfl, hscript, hre]
      simp
    · exact List.Sublist.append hsub (List.Sublist.refl [p])

/-- `JobLogInv` across the settling of the job's own engine. -/
theorem JobLogInv_return_self (s t : QState) (jid : String) (e : InFlight)
    (hef : engineFor s jid = some e) (hre : e.rest = [])
    (hjobs : t.jobs = (setJob s jid (fun j =>
      { j with status := if e.engineOk then JobStatus.completed else JobStatus.failed })).jobs)
    (heng : t.engines = s.engines.filter (fun e2 => e2.jid ≠ jid))
    (hlog : t.progressLog = s.progressLog)
    (h : JobLogInv s jid) : JobLogInv t jid := by
  have hl : lookupJob t jid = (lookupJob s jid).map (fun j =>
      { j with status := if e.engineOk then JobStatus.completed else JobStatus.failed }) := by
    rw [lookupJob_eq_of_jobs t _ hjobs jid, lookupJob_setJob, if_pos rfl]
  have hp := progressLogOf_eq_of_log s t hlog jid
  have he : engineFor t jid = none := by
    rw [engineFor_filter s t jid jid heng, if_pos rfl]
  unfold JobLogInv at h ⊢
  cases hlk : lookupJob s jid with
  | none =>
    simp only [hlk] at h
    rw [h.2] at hef
    exact Option.noConfusion hef
  | some job =>
    simp only [hlk] at h
    obtain ⟨hok, hrest⟩ := h
    simp only [hef] at hrest
    obtain ⟨hnq, hoke, pre, hscript, hsub⟩ := hrest
    simp only [hl, hlk, Option.map_some', he, hp]
    refine ⟨hok, ?_, ?_⟩
    · rw [show ({ job with status := if e.engineOk then JobStatus.completed
        else JobStatus.failed } : Job).script = job.script from rfl, hscript, hre,
        List.append_nil]
      exact hsub
    · intro hq
      exfalso
      cases hb : e.engineOk <;> rw [hb] at hq <;> simp at hq

/-- `JobLogInv` across the enqueue of the job itself. -/
theorem JobLogInv_enqueue_self (s t : QState) (jid : String) (job : Job)
    (_hjob : job.status = JobStatus.queued)
    (hscript : ScriptOK job.script job.engineOk)
    (hjobs : t.jobs = s.jobs ++ [(jid, job)])
    (heng : t.engines = s.engines) (hlog : t.progressLog = s.progressLog)
    (hnone : lookupJob s jid = none)
    (h : JobLogInv s jid) : JobLogInv t jid := by
  unfold JobLogInv at h ⊢
  simp only [hnone] at h
  have hl : lookupJob t jid = some job := by
    rw [lookupJob_append_fresh s t jid job jid hjobs hnone, if_pos rfl]
  simp only [hl]
  refine ⟨hscript, ?_⟩
  rw [engineFor_eq_of_engines s t heng jid, h.2]
  rw [progressLogOf_eq_of_log s t hlog jid, h.1]
  exact ⟨List.nil_sublist _, fun _ => rfl⟩

/-- `JobLogInv` across the enqueue of a different job. -/
theorem JobLogInv_append_other (s t : QState) (jid k : String) (job : Job)
    (hjk : ¬jid = k) (hjobs : t.jobs = s.jobs ++ [(k, job)])
    (heng : t.engines = s.engines) (hlog : t.progressLog = s.progressLog)
    (h : JobLogInv s jid) : JobLogInv t jid := by
  refine JobLogInv_congr s t jid ?_ (engineFor_eq_of_engines s t heng jid)
    (progressLogOf_eq_of_log s t hlog jid) h
  cases hlk : lookupJob s jid with
  | some x => exact lookupJob_append_of_some s t _ jid hjobs x hlk
  | none => rw [lookupJob_append_fresh s t k job jid hjobs hlk, if_neg hjk]

/-- Every queue event preserves `JobLogInv`. -/
theorem JobLogInv_qstep (s : QState) (ev : QEvent) (jid : String)
    (h : JobLogInv s jid) : JobLogInv (qstep s ev) jid := by
  cases ev with
  | enqueueScan k pid env =>
    simp only [qstep]
    split
    · exact h
    · rename_i hfresh
      have hnone : lookupJob s k = none := by
        cases hl : lookupJob s k with
        | none => rfl
        | some x => rw [hl] at hfresh; simp at hfresh
      split
      · refine JobLogInv_dispatch _ jid ?_
        by_cases hjk : jid = k
        · subst hjk
          exact JobLogInv_enqueue_self s _ jid _ rfl (runScan_events_ok env) rfl rfl rfl
            hnone h
        · exact JobLogInv_append_other s _ jid k _ hjk rfl rfl rfl h
      · by_cases hjk : jid = k
        · subst hjk
          exact JobLogInv_enqueue_self s _ jid _ rfl (runScan_events_ok env) rfl rfl rfl
            hnone h
        · exact JobLogInv_append_other s _ jid k _ hjk rfl rfl rfl h
  | pauseScan k =>
    simp only [qstep]
    split
    · exact h
    · rename_i job hfind
      split
      · by_cases hjk : jid = k
        · subst hjk
          exact JobLogInv_set_status_self s _ jid .paused (by simp) rfl rfl rfl h
        · exact JobLogInv_congr s _ jid
            ((lookupJob_eq_of_jobs _ (setJob s k (fun j =>
              { j with status := JobStatus.paused })) rfl jid).trans
              (by rw [lookupJob_setJob, if_neg hjk]))
            (engineFor_eq_of_engines s _ rfl jid)
            (progressLogOf_eq_of_log s _ rfl jid) h
      · exact h
  | resumeScan k =>
    simp only [qstep]
    split
    · exact h
    · rename_i job hfind
      split
      · refine JobLogInv_dispatch _ jid ?_
        by_cases hjk : jid = k
        · subst hjk
          exact JobLogInv_set_status_self s _ jid .running (by simp) rfl rfl rfl h
        · exact JobLogInv_congr s _ jid
            ((lookupJob_eq_of_jobs _ (setJob s k (fun j =>
              { j with status := JobStatus.running })) rfl jid).trans
              (by rw [lookupJob_setJob, if_neg hjk]))
            (engineFor_eq_of_engines s _ rfl jid)
            (progressLogOf_eq_of_log s _ rfl jid) h
      · exact h
  | cancelScan k =>
    simp only [qstep]
    split
    · exact h
    · rename_i job hfind
      by_cases hrun : job.status = JobStatus.running
      · simp only [if_pos hrun]
        by_cases hjk : jid = k
        · subst hjk
          exact JobLogInv_set_status_self s _ jid .cancelled (by simp) rfl rfl rfl h
        · exact JobLogInv_congr s _ jid
            ((lookupJob_eq_of_jobs _ (setJob s k (fun j =>
              { j with status := JobStatus.cancelled })) rfl jid).trans
              (by rw [lookupJob_setJob, if_neg hjk]))
            (engineFor_eq_of_engines s _ rfl jid)
            (progressLogOf_eq_of_log s _ rfl jid) h
      · simp only [if_neg hrun]
        by_cases hjk : jid = k
        · subst hjk
          exact JobLogInv_set_status_self s _ jid .cancelled (by simp) rfl rfl rfl h
        · exact JobLogInv_congr s _ jid
            ((lookupJob_eq_of_jobs _ (setJob s k (fun j =>
              { j with status := JobStatus.cancelled })) rfl jid).trans
              (by rw [lookupJob_setJob, if_neg hjk]))
            (engineFor_eq_of_engines s _ rfl jid)
            (progressLogOf_eq_of_log s _ rfl jid) h
  | processNext => exact JobLogInv_dispatch s jid h
  | engineProgress k =>
    simp only [qstep]
    split
    · exact h
    · rename_i e hef
      split
      · exact h
      · rename_i p rest hre
        split
        · by_cases hjk : jid = k
          · subst hjk
            exact JobLogInv_progress_accept s _ jid e p rest hef hre rfl rfl rfl h
          · exact JobLogInv_congr s _ jid
              ((lookupJob_eq_of_jobs _ (setJob s k (fun j =>
                { j with progress := p })) rfl jid).trans
                (by rw [lookupJob_setJob, if_neg hjk]))
              ((engineFor_map_rest s _ k rest jid rfl).trans (by rw [if_neg hjk]))
              ((progressLogOf_append s _ k p rfl jid).trans
                (by rw [if_neg hjk, List.append_nil])) h
        · by_cases hjk : jid = k
          · subst hjk
            exact JobLogInv_progress_discard s _ jid e p rest hef hre rfl rfl rfl h
          · exact JobLogInv_congr s _ jid
              (lookupJob_eq_of_jobs _ s rfl jid)
              ((engineFor_map_rest s _ k rest jid rfl).trans (by rw [if_neg hjk]))
              (progressLogOf_eq_of_log s _ rfl jid) h
  | engineReturn k =>
    simp only [qstep]
    split
    · exact h
    · rename_i e hef
      split
      · exact h
      · by_cases hjk : jid = k
        · subst hjk
          exact JobLogInv_return_self s _ jid e hef (by assumption) rfl rfl rfl h
        · exact JobLogInv_congr s _ jid
            ((lookupJob_eq_of_jobs _ (setJob s k (fun j => { j with status :=
              if e.engineOk then JobStatus.completed else JobStatus.failed })) rfl
              jid).trans (by rw [lookupJob_setJob, if_neg hjk]))
            ((engineFor_filter s _ k jid rfl).trans (by rw [if_neg hjk]))
            (progressLogOf_eq_of_log s _ rfl jid) h

/-- `JobPhase` across a dispatch of the job itself. -/
theorem JobPhase_start (s t : QState) (jid : String) (job : Job)
    (hlook : lookupJob s jid = some job) (hkq : job.status = JobStatus.queued)
    (hjobs : t.jobs = (setJob s jid (fun j => { j with status := JobStatus.running })).jobs)
    (heng : t.engines = s.engines ++ [⟨jid, job.script, job.engineOk⟩])
    (hlog : t.progressLog = s.progressLog)
    (h : JobPhase s jid) : JobPhase t jid := by
  unfold JobPhase at h ⊢
  simp only [hlook, hkq] at h
  obtain ⟨hpl, hefn⟩ := h
  have hl : lookupJob t jid = some { job with status := JobStatus.running } := by
    rw [lookupJob_eq_of_jobs t _ hjobs jid, lookupJob_setJob, if_pos rfl, hlook]
    rfl
  have he : engineFor t jid = some ⟨jid, job.script, job.engineOk⟩ :=
    engineFor_append_self s t _ jid heng hefn rfl
  have hp : progressLogOf t jid = [] := by
    rw [progressLogOf_eq_of_log s t hlog jid, hpl]
  simp only [hl]
  refine ⟨⟨jid, job.script, job.engineOk⟩, he, rfl, ?_⟩
  rw [hp]
  simp

/-- `JobPhase` across a dispatch of a different job. -/
theorem JobPhase_start_other (s t : QState) (jid k : String) (x : InFlight)
    (hjobs : t.jobs = (setJob s k (fun j => { j with status := JobStatus.running })).jobs)
    (heng : t.engines = s.engines ++ [x])
    (hlog : t.progressLog = s.progressLog)
    (hjk : ¬jid = k) (hxk : x.jid = k)
    (h : JobPhase s jid) : JobPhase t jid := by
  refine JobPhase_congr s t jid ?_ ?_ (progressLogOf_eq_of_log s t hlog jid) h
  · rw [lookupJob_eq_of_jobs t _ hjobs jid, lookupJob_setJob, if_neg hjk]
  · cases hef : engineFor s jid with
    | some e => exact engineFor_append_some s t x jid e heng hef
    | none =>
      exact engineFor_append_none s t x jid heng hef
        (by rw [hxk]; exact fun hc => hjk hc.symm)

/-- `JobPhase` across `dispatch`. -/
theorem JobPhase_dispatch (s : QState) (jid : String) (h : JobPhase s jid) :
    JobPhase (dispatch s) jid := by
  unfold dispatch
  split
  · exact h
  · split
    · exact h
    · rename_i k hfind
      split
      · exact h
      · rename_i job hlook
        have hkq : job.status = JobStatus.queued := by
          simpa [hlook] using List.find?_some hfind
        by_cases hjk : jid = k
        · subst hjk
          exact JobPhase_start s _ jid job hlook hkq rfl rfl rfl h
        · exact JobPhase_start_other s _ jid k ⟨k, job.script, job.engineOk⟩ rfl rfl rfl
            hjk rfl h

/-- `JobPhase` across the enqueue of the job itself. -/
theorem JobPhase_enqueue_self (s t : QState) (jid : String) (job : Job)
    (hjob : job.status = JobStatus.queued)
    (hjobs : t.jobs = s.jobs ++ [(jid, job)])
    (heng : t.engines = s.engines) (hlog : t.progressLog = s.progressLog)
    (hnone : lookupJob s jid = none)
    (h : JobPhase s jid) : JobPhase t jid := by
  unfold JobPhase at h ⊢
  simp only [hnone] at h
  have hl : lookupJob t jid = some job := by
    rw [lookupJob_append_fresh s t jid job jid hjobs hnone, if_pos rfl]
  simp only [hl, hjob]
  rw [engineFor_eq_of_engines s t heng jid, progressLogOf_eq_of_log s t hlog jid]
  exact ⟨h.1, h.2⟩

/-- `JobPhase` across the enqueue of a different job. -/
theorem JobPhase_append_other (s t : QState) (jid k : String) (job : Job)
    (hjk : ¬jid = k) (hjobs : t.jobs = s.jobs ++ [(k, job)])
    (heng : t.engines = s.engines) (hlog : t.progressLog = s.progressLog)
    (h : JobPhase s jid) : JobPhase t jid := by
  refine JobPhase_congr s t jid ?_ (engineFor_eq_of_engines s t heng jid)
    (progressLogOf_eq_of_log s t hlog jid) h
  cases hlk : lookupJob s jid with
  | some x => exact lookupJob_append_of_some s t _ jid hjobs x hlk
  | none => rw [lookupJob_append_fresh s t k job jid hjobs hlk, if_neg hjk]

/-- Under `JobPhase`, an in-flight engine means the job is `running` with
the log an exact prefix of the script. -/
theorem JobPhase_running_of_engine (s : QState) (jid : String) (e : InFlight)
    (hef : engineFor s jid = some e) (h : JobPhase s jid) :
    ∃ job, lookupJob s jid = some job ∧ job.status = JobStatus.running ∧
      e.engineOk = job.engineOk ∧ progressLogOf s jid ++ e.rest = job.script := by
  unfold JobPhase at h
  cases hlk : lookupJob s jid with
  | none =>
    simp only [hlk] at h
    rw [h.2] at hef
    exact Option.noConfusion hef
  | some job =>
    simp only [hlk] at h
    cases hst : job.status with
    | queued =>
      simp only [hst] at h
      rw [h.2] at hef
      exact Option.noConfusion hef
    | running =>
      simp only [hst] at h
      obtain ⟨e', hee, hoke, hcat⟩ := h
      rw [hef] at hee
      obtain rfl : e = e' := by injection hee
      exact ⟨job, rfl, hst, hoke, hcat⟩
    | paused => simp only [hst] at h
    | cancelled => simp only [hst] at h
    | completed =>
      simp only [hst] at h
      rw [h.1] at hef
      exact Option.noConfusion hef
    | failed =>
      simp only [hst] at h
      rw [h.1] at hef
      exact Option.noConfusion hef

/-- `JobPhase` across an accepted progress event of the job itself. -/
theorem JobPhase_progress_accept (s t : QState) (jid : String) (e : InFlight)
    (p : ScanProgress) (rest : List ScanProgress)
    (hef : engineFor s jid = some e) (hre : e.rest = p :: rest)
    (hjobs : t.jobs = (setJob s jid (fun j => { j with progress := p })).jobs)
    (heng : t.engines = s.engines.map (fun e2 =>
      if e2.jid == jid then { e2 with rest := rest } else e2))
    (hlog : t.progressLog = s.progressLog ++ [(jid, p)])
    (h : JobPhase s jid) : JobPhase t jid := by
  obtain ⟨job, hlk, hst, hoke, hcat⟩ := JobPhase_running_of_engine s jid e hef h
  have hl : lookupJob t jid = some { job with progress := p } := by
    rw [lookupJob_eq_of_jobs t _ hjobs jid, lookupJob_setJob, if_pos rfl, hlk]
    rfl
  have hp : progressLogOf t jid = progressLogOf s jid ++ [p] := by
    rw [progressLogOf_append s t jid p hlog jid, if_pos rfl]
  have he : engineFor t jid = some { e with rest := rest } := by
    rw [engineFor_map_rest s t jid rest jid heng, if_pos rfl, hef]
    rfl
  unfold JobPhase
  simp only [hl, hst]
  refine ⟨{ e with rest := rest }, he, hoke, ?_⟩
  rw [hp, List.append_assoc]
  simpa [hre] using hcat

/-- `JobPhase` across the settling of the job's own engine. -/
theorem JobPhase_return_self (s t : QState) (jid : String) (e : InFlight)
    (hef : engineFor s jid = some e) (hre : e.rest = [])
    (hjobs : t.jobs = (setJob s jid (fun j =>
      { j with status := if e.engineOk then JobStatus.completed else JobStatus.failed })).jobs)
    (heng : t.engines = s.engines.filter (fun e2 => e2.jid ≠ jid))
    (hlog : t.progressLog = s.progressLog)
    (h : JobPhase s jid) : JobPhase t jid := by
  obtain ⟨job, hlk, hst, hoke, hcat⟩ := JobPhase_running_of_engine s jid e hef h
  have hl : lookupJob t jid = some { job with status :=
      if e.engineOk then JobStatus.completed else JobStatus.failed } := by
    rw [lookupJob_eq_of_jobs t _ hjobs jid, lookupJob_setJob, if_pos rfl, hlk]
    rfl
  have hp : progressLogOf t jid = job.script := by
    rw [progressLogOf_eq_of_log s t hlog jid]
    rw [hre, List.append_nil] at hcat
    exact hcat
  have he : engineFor t jid = none := by
    rw [engineFor_filter s t jid jid heng, if_pos rfl]
  unfold JobPhase
  cases hb : e.engineOk with
  | true =>
    have hl2 : lookupJob t jid = some { job with status := JobStatus.completed } := by
      rw [hl, hb]
      simp
    simp only [hl2]
    exact ⟨he, hp, hoke ▸ hb⟩
  | false =>
    have hl2 : lookupJob t jid = some { job with status := JobStatus.failed } := by
      rw [hl, hb]
      simp
    simp only [hl2]
    exact ⟨he, hp, hoke ▸ hb⟩

/-- Every queue event other than a pause or cancel of the job itself
preserves `JobPhase`. -/
theorem JobPhase_qstep (s : QState) (ev : QEvent) (jid : String)
    (hev : ¬ev = .pauseScan jid ∧ ¬ev = .cancelScan jid)
    (h : JobPhase s jid) : JobPhase (qstep s ev) jid := by
  cases ev with
  | enqueueScan k pid env =>
    simp only [qstep]
    split
    · exact h
    · rename_i hfresh
      have hnone : lookupJob s k = none := by
        cases hl : lookupJob s k with
        | none => rfl
        | some x => rw [hl] at hfresh; simp at hfresh
      split
      · refine JobPhase_dispatch _ jid ?_
        by_cases hjk : jid = k
        · subst hjk
          exact JobPhase_enqueue_self s _ jid _ rfl rfl rfl rfl hnone h
        · exact JobPhase_append_other s _ jid k _ hjk rfl rfl rfl h
      · by_cases hjk : jid = k
        · subst hjk
          exact JobPhase_enqueue_self s _ jid _ rfl rfl rfl rfl hnone h
        · exact JobPhase_append_other s _ jid k _ hjk rfl rfl rfl h
  | pauseScan k =>
    have hjk : ¬jid = k := fun hc => hev.1 (by rw [hc])
    simp only [qstep]
    split
    · exact h
    · rename_i job hfind
      split
      · exact JobPhase_congr s _ jid
          ((lookupJob_eq_of_jobs _ (setJob s k (fun j =>
            { j with status := JobStatus.paused })) rfl jid).trans
            (by rw [lookupJob_setJob, if_neg hjk]))
          (engineFor_eq_of_engines s _ rfl jid)
          (progressLogOf_eq_of_log s _ rfl jid) h
      · exact h
  | resumeScan k =>
    simp only [qstep]
    split
    · exact h
    · rename_i job hfind
      split
      · rename_i hpaused
        by_cases hjk : jid = k
        · subst hjk
          have hlk := findJob_eq_lookup s jid job hfind
          unfold JobPhase at h
          simp only [hlk, hpaused] at h
        · refine JobPhase_dispatch _ jid ?_
          exact JobPhase_congr s _ jid
            ((lookupJob_eq_of_jobs _ (setJob s k (fun j =>
              { j with status := JobStatus.running })) rfl jid).trans
              (by rw [lookupJob_setJob, if_neg hjk]))
            (engineFor_eq_of_engines s _ rfl jid)
            (progressLogOf_eq_of_log s _ rfl jid) h
      · exact h
  | cancelScan k =>
    have hjk : ¬jid = k := fun hc => hev.2 (by rw [hc])
    simp only [qstep]
    split
    · exact h
    · rename_i job hfind
      by_cases hrun : job.status = JobStatus.running
      · simp only [if_pos hrun]
        exact JobPhase_congr s _ jid
          ((lookupJob_eq_of_jobs _ (setJob s k (fun j =>
            { j with status := JobStatus.cancelled })) rfl jid).trans
            (by rw [lookupJob_setJob, if_neg hjk]))
          (engineFor_eq_of_engines s _ rfl jid)
          (progressLogOf_eq_of_log s _ rfl jid) h
      · simp only [if_neg hrun]
        exact JobPhase_congr s _ jid
          ((lookupJob_eq_of_jobs _ (setJob s k (fun j =>
            { j with status := JobStatus.cancelled })) rfl jid).trans
            (by rw [lookupJob_setJob, if_neg hjk]))
          (engineFor_eq_of_engines s _ rfl jid)
          (progressLogOf_eq_of_log s _ rfl jid) h
  | processNext => exact JobPhase_dispatch s jid h
  | engineProgress k =>
    simp only [qstep]
    split
    · exact h
    · rename_i e hef
      split
      · exact h
      · rename_i p rest hre
        split
        · rename_i hstat
          by_cases hjk : jid = k
          · subst hjk
            exact JobPhase_progress_accept s _ jid e p rest hef hre rfl rfl rfl h
          · exact JobPhase_congr s _ jid
              ((lookupJob_eq_of_jobs _ (setJob s k (fun j =>
                { j with progress := p })) rfl jid).trans
                (by rw [lookupJob_setJob, if_neg hjk]))
              ((engineFor_map_rest s _ k rest jid rfl).trans (by rw [if_neg hjk]))
              ((progressLogOf_append s _ k p rfl jid).trans
                (by rw [if_neg hjk, List.append_nil])) h
        · rename_i hstat
          by_cases hjk : jid = k
          · subst hjk
            exfalso
            obtain ⟨job, hlk, hst, _, _⟩ := JobPhase_running_of_engine s jid e hef h
            refine hstat ?_
            show statusOf s jid = some JobStatus.running
            simp [statusOf, hlk, hst]
          · exact JobPhase_congr s _ jid
              (lookupJob_eq_of_jobs _ s rfl jid)
              ((engineFor_map_rest s _ k rest jid rfl).trans (by rw [if_neg hjk]))
              (progressLogOf_eq_of_log s _ rfl jid) h
  | engineReturn k =>
    simp only [qstep]
    split
    · exact h
    · rename_i e hef
      split
      · exact h
      · by_cases hjk : jid = k
        · subst hjk
          exact JobPhase_return_self s _ jid e hef (by assumption) rfl rfl rfl h
        · exact JobPhase_congr s _ jid
            ((lookupJob_eq_of_jobs _ (setJob s k (fun j => { j with status :=
              if e.engineOk then JobStatus.completed else JobStatus.failed })) rfl
              jid).trans (by rw [lookupJob_setJob, if_neg hjk]))
            ((engineFor_filter s _ k jid rfl).trans (by rw [if_neg hjk]))
            (progressLogOf_eq_of_log s _ rfl jid) h

/-- `JobLogInv` holds in the initial queue state. -/
theorem JobLogInv_qinit (jid : String) : JobLogInv qinit jid :=
  ⟨rfl, rfl⟩

/-- `JobLogInv` is preserved by folding any event list from any state. -/
theorem JobLogInv_foldl (jid : String) (evs : List QEvent) :
    ∀ s : QState, JobLogInv s jid → JobLogInv (evs.foldl qstep s) jid := by
  induction evs with
  | nil => exact fun _ h => h
  | cons ev evs ih =>
    exact fun s h => ih (qstep s ev) (JobLogInv_qstep s ev jid h)

/-- `JobLogInv` holds after any run of the queue from its initial state. -/
theorem JobLogInv_qrun (evs : List QEvent) (jid : String) :
    JobLogInv (qrun evs) jid :=
  JobLogInv_foldl jid evs qinit (JobLogInv_qinit jid)

/-- `JobPhase` holds in the initial queue state. -/
theorem JobPhase_qinit (jid : String) : JobPhase qinit jid :=
  ⟨rfl, rfl⟩

/-- `JobPhase` is preserved by folding any pause- and cancel-free event
list from any state. -/
theorem JobPhase_foldl (jid : String) (evs : List QEvent) :
    ∀ s : QState,
    (∀ ev ∈ evs, ¬ev = QEvent.pauseScan jid ∧ ¬ev = QEvent.cancelScan jid) →
    JobPhase s jid → JobPhase (evs.foldl qstep s) jid := by
  induction evs with
  | nil => exact fun _ _ h => h
  | cons ev evs ih =>
    intro s hev h
    exact ih (qstep s ev) (fun e he => hev e (List.mem_cons_of_mem ev he))
      (JobPhase_qstep s ev jid (hev ev (List.mem_cons_self ev evs)) h)

/-- `JobPhase` holds after any pause- and cancel-free run of the queue. -/
theorem JobPhase_qrun (evs : List QEvent) (jid : String)
    (hev : ∀ ev ∈ evs, ¬ev = QEvent.pauseScan jid ∧ ¬ev = QEvent.cancelScan jid) :
    JobPhase (qrun evs) jid :=
  JobPhase_foldl jid evs qinit hev (JobPhase_qinit jid)

/-- Under `JobLogInv`, the accepted progress log of a stored job is a
sublist of the job's full engine script. -/
theorem progressLog_sublist (s : QState) (jid : String) (job : Job)
    (hlk : lookupJob s jid = some job) (h : JobLogInv s jid) :
    List.Sublist (progressLogOf s jid) job.script := by
  unfold JobLogInv at h
  simp only [hlk] at h
  obtain ⟨hok, hrest⟩ := h
  cases hef : engineFor s jid with
  | none =>
    simp only [hef] at hrest
    exact hrest.1
  | some e =>
    simp only [hef] at hrest
    obtain ⟨-, -, pre, hpre, hsub⟩ := hrest
    rw [hpre]
    exact hsub.trans (List.sublist_append_left pre e.rest)

/-- C9 (amended): in every queue run, every accepted progress event of
every job satisfies `completed ≤ total` and the accepted `completed`
values are non-decreasing; and for a job that is never paused and never
cancelled during the run, if it ends `completed` then its final accepted
progress event has `completed = total`.  (The original final-event clause
fails for paused jobs: the pause discards the engine's remaining events
while the engine still marks the job completed — see
`C9_counterexample`.) -/
theorem C9_progress_properties (evs : List QEvent) (jid : String) :
    (∀ e ∈ progressLogOf (qrun evs) jid, e.completed ≤ e.total) ∧
    chainCompleted (progressLogOf (qrun evs) jid) ∧
    ((∀ ev ∈ evs, ¬ev = QEvent.pauseScan jid ∧ ¬ev = QEvent.cancelScan jid) →
      statusOf (qrun evs) jid = some JobStatus.completed →
      ∃ e, (progressLogOf (qrun evs) jid).getLast? = some e ∧
        e.completed = e.total) := by
  have hinv := JobLogInv_qrun evs jid
  cases hlk : lookupJob (qrun evs) jid with
  | none =>
    have hlog : progressLogOf (qrun evs) jid = [] := by
      unfold JobLogInv at hinv
      simp only [hlk] at hinv
      exact hinv.1
    refine ⟨?_, ?_, ?_⟩
    · rw [hlog]
      intro e he
      exact absurd he (List.not_mem_nil e)
    · rw [hlog]
      exact List.chain'_nil
    · intro _ hstat
      simp [statusOf, hlk] at hstat
  | some job =>
    have hok : ScriptOK job.script job.engineOk := by
      unfold JobLogInv at hinv
      simp only [hlk] at hinv
      exact hinv.1
    have hsub := progressLog_sublist (qrun evs) jid job hlk hinv
    refine ⟨fun e he => hok.1 e (hsub.subset he),
      List.Chain'.sublist hok.2.1 hsub, ?_⟩
    intro hnever hstat
    have hph := JobPhase_qrun evs jid hnever
    unfold JobPhase at hph
    simp only [hlk] at hph
    have hjs : job.status = JobStatus.completed := by
      simp only [statusOf, hlk, Option.map_some', Option.some.injEq] at hstat
      exact hstat
    rw [hjs] at hph
    obtain ⟨-, hlog, hokT⟩ := hph
    obtain ⟨e, hlast, heq⟩ := hok.2.2 hokT
    exact ⟨e, by rw [hlog]; exact hlast, heq⟩

/-- Witness for C9 on a concrete pause-free trace: the one-query run is
dispatched, its three progress events are accepted, the engine resolves,
the job ends completed and the final accepted event has
`completed = total`. -/
theorem C9_witness :
    (∀ e ∈ progressLogOf (qrun traceC9good) "A", e.completed ≤ e.total) ∧
    chainCompleted (progressLogOf (qrun traceC9good) "A") ∧
    statusOf (qrun traceC9good) "A" = some JobStatus.completed ∧
    ∃ e, (progressLogOf (qrun traceC9good) "A").getLast? = some e ∧
      e.completed = e.total := by
  have h := C9_progress_properties traceC9good "A"
  have hnever : ∀ ev ∈ traceC9good,
      ¬ev = QEvent.pauseScan "A" ∧ ¬ev = QEvent.cancelScan "A" := by
    intro ev hev
    simp only [traceC9good, List.mem_cons, List.not_mem_nil, or_false] at hev
    rcases hev with rfl | rfl | rfl | rfl | rfl <;>
      exact ⟨fun hc => QEvent.noConfusion hc, fun hc => QEvent.noConfusion hc⟩
  have hstat : statusOf (qrun traceC9good) "A" = some JobStatus.completed := by
    decide
  exact ⟨h.1, h.2.1, hstat, h.2.2 hnever hstat⟩

end GeoAnalyser

